import Mathlib

/-!
# Verification of the `msks` task orchestrator core

A shallow embedding, in Lean 4, of the parts of the `msks` Python source
(`msks/task.py`, `msks/storage.py`, `msks/environment.py`, `msks/log.py`,
`msks/__init__.py`) needed to settle the frozen claims about the
specification.  Pure functions of the source become Lean functions;
stateful code becomes explicit state passing; fallible code returns
`Except`; the filesystem, clock and subprocesses are passed in as explicit
data (file lists, timestamps, poll results, exit codes).

The SHA-1 digest of `msks.dict_hash` is abstracted by the canonically
serialized JSON string that the source feeds to the digest
(`json.dumps(d, sort_keys=True)`): digest equality and inequality are
settled at the level of the encoded string, assuming collision freedom of
SHA-1.
-/

namespace Msks

/-! ## Python-like JSON values

`PVal` models the values that appear in `meta.json`, in entry-point
argument declarations and in the environment spec files: JSON scalars,
lists and string-keyed mappings (Python dicts, kept as insertion-ordered
association lists). -/

inductive PVal where
  | vnone : PVal
  | vbool (b : Bool) : PVal
  | vint (n : Int) : PVal
  | vfloat (q : Rat) : PVal
  | vstr (s : String) : PVal
  | vlist (xs : List PVal) : PVal
  | vdict (xs : List (String × PVal)) : PVal

/-! ### Character / string ordering

Python compares strings lexicographically by code point.  `json.dumps`
with `sort_keys=True` and `sorted` on dict items use that order on the
keys. -/

def charListLe : List Char → List Char → Bool
  | [], _ => true
  | _ :: _, [] => false
  | a :: as, b :: bs =>
    if a.toNat < b.toNat then true
    else if b.toNat < a.toNat then false
    else charListLe as bs

def strLe (a b : String) : Bool := charListLe a.data b.data

/-- Insert into a sorted list: before the first element that is not
strictly below `x` — together with `insSortBy` this is a sorting function
agreeing with Python `sorted` for the total orders used here. -/
def insSorted (le : α → α → Bool) (x : α) : List α → List α
  | [] => [x]
  | y :: ys => if le x y then x :: y :: ys else y :: insSorted le x ys

def insSortBy (le : α → α → Bool) : List α → List α
  | [] => []
  | x :: xs => insSorted le x (insSortBy le xs)

/-- `sorted` on a list of strings (used for `sorted(list(v))` on the
dependency resource sets in `_normalize_arguments`). -/
def sortStrings (xs : List String) : List String := insSortBy strLe xs

/-- Association-list primitives with Python-dict semantics: lookup of the
key, assignment replacing in place (keeping the position of an existing
key) or appending. -/
def alSet (k : String) (v : α) : List (String × α) → List (String × α)
  | [] => [(k, v)]
  | (k', v') :: rest => if k' = k then (k, v) :: rest else (k', v') :: alSet k v rest

/-! ### JSON serialization (`json.dumps(_, sort_keys=True)`)

Mapping entries are rendered with keys sorted ascending.  The float
rendering is an injective stand-in for Python's `repr` of floats (no claim
compares a digest against an externally computed constant, only equality
and inequality of digests matter). -/

def jsonEscape (s : String) : String :=
  String.mk (s.data.foldr (fun c acc =>
    if c = '"' then '\\' :: '"' :: acc
    else if c = '\\' then '\\' :: '\\' :: acc
    else c :: acc) [])

def jsonStr (s : String) : String := "\"" ++ jsonEscape s ++ "\""

def jsonFloat (q : Rat) : String := "F" ++ toString q.num ++ "/" ++ toString q.den

def commaSep : List String → String
  | [] => ""
  | [x] => x
  | x :: xs => x ++ ", " ++ commaSep xs

mutual
def pvalDumps : PVal → String
  | .vnone => "null"
  | .vbool b => if b then "true" else "false"
  | .vint n => toString n
  | .vfloat q => jsonFloat q
  | .vstr s => jsonStr s
  | .vlist xs => "[" ++ commaSep (pvalDumpsList xs) ++ "]"
  | .vdict xs =>
    "\x7b" ++ commaSep ((insSortBy (fun p q => strLe p.1 q.1) (pvalDumpsEntries xs)).map Prod.snd) ++ "\x7d"
def pvalDumpsList : List PVal → List String
  | [] => []
  | x :: xs => pvalDumps x :: pvalDumpsList xs
def pvalDumpsEntries : List (String × PVal) → List (String × String)
  | [] => []
  | (k, v) :: xs => (k, jsonStr k ++ ": " ++ pvalDumps v) :: pvalDumpsEntries xs
end

/-- `msks.dict_hash` (`msks/__init__.py`): SHA-1 hex digest of
`json.dumps(dictionary, sort_keys=True)`.  The digest is abstracted by the
encoded string itself (collision freedom assumed). -/
def dict_hash (v : PVal) : String :=
  pvalDumps v

/-! ### Python `==`

Python compares booleans, ints and floats numerically across types;
containers are compared element-wise (dicts independently of entry
order). -/

def pyNum? : PVal → Option Rat
  | .vbool b => some (if b then 1 else 0)
  | .vint n => some (n : Rat)
  | .vfloat q => some q
  | _ => none

mutual
def pyEq : PVal → PVal → Bool
  | a, b =>
    match pyNum? a, pyNum? b with
    | some x, some y => x == y
    | _, _ =>
      match a, b with
      | .vnone, .vnone => true
      | .vstr s, .vstr t => s == t
      | .vlist xs, .vlist ys => pyEqList xs ys
      | .vdict xs, .vdict ys => xs.length == ys.length && pyEqEntries xs ys
      | _, _ => false
def pyEqList : List PVal → List PVal → Bool
  | [], [] => true
  | x :: xs, y :: ys => pyEq x y && pyEqList xs ys
  | _, _ => false
def pyEqEntries : List (String × PVal) → List (String × PVal) → Bool
  | [], _ => true
  | (k, v) :: rest, ys =>
    (match ys.lookup k with
     | some w => pyEq v w
     | none => false) && pyEqEntries rest ys
end

/-- `isinstance(value, (float, int, str))` — note that Python booleans are
instances of `int`. -/
def isScalar : PVal → Bool
  | .vfloat _ => true
  | .vint _ => true
  | .vbool _ => true
  | .vstr _ => true
  | _ => false

/-! ## Paths (`os.path`)

Character-list implementations of the string predicates, which the Lean
kernel evaluates directly. -/

def strStartsWith (s pre : String) : Bool := pre.data.isPrefixOf s.data

/-- `os.path.isabs` on POSIX. -/
def isAbs (p : String) : Bool :=
  match p.data with
  | '/' :: _ => true
  | _ => false

/-- `os.path.join(a, b)` on POSIX for two components. -/
def osPathJoin (a b : String) : String :=
  if isAbs b then b
  else if a = "" ∨ a.data.getLast? = some '/' then a ++ b
  else a ++ "/" ++ b

/-! ## Task status (`msks/task.py`, `TaskStatus`) -/

inductive TaskStatus where
  | unknown | pending | preparing | running | complete | failed | archived
deriving DecidableEq, Repr

/-- `str(status)` — the serialized form stored in `meta.json`. -/
def TaskStatus.str : TaskStatus → String
  | .unknown => "unknown"
  | .pending => "pending"
  | .preparing => "preparing"
  | .running => "running"
  | .complete => "complete"
  | .failed => "failed"
  | .archived => "archived"

/-! ## Task metadata

Typed view of the `meta.json` document a `Task` manipulates.
`properties` is `Option`-valued to distinguish an absent `properties` key
from an empty mapping (`Task.set` inserts the key on demand). -/

structure TaskMeta where
  status : TaskStatus
  created : String
  updated : String
  repository : String
  commit : String
  entrypoint : String
  arguments : List (String × String)
  dependencies : List (String × List String)
  command : List String
  environment : List (String × String)
  properties : Option (List (String × PVal))

/-- Exceptions the embedded code can raise. -/
inductive PyErr where
  | runtimeError (msg : String)
  | ioError (msg : String)
  | valueError (msg : String)
  | attributeError (msg : String)
deriving DecidableEq, Repr

/-- `Task._status` (`msks/task.py:188-192`): overwrite `status` with its
serialized form and bump `updated` to the current UTC time, then push the
document. -/
def Task.statusWrite (meta : TaskMeta) (status : TaskStatus) (now : String) : TaskMeta :=
  { meta with status := status, updated := now }

/-- The inter-process `runlock` of a task as `Task.restore` can observe
it: whether the `.runlock` lock file exists on disk, and whether some
other process currently holds the lock (so that a timed `acquire` would
time out). -/
structure RunlockView where
  fileExists : Bool
  heldElsewhere : Bool
deriving DecidableEq, Repr

/-- `Task.restore` (`msks/task.py:173-186`).  For a task whose persisted
status is `running`: when the runlock file does not exist the task is
marked `failed`; otherwise a timed acquire is attempted — on timeout
(lock held elsewhere) nothing happens, and on success the code calls
`self._update(TaskStatus.PENDING)`, an attribute `Task` does not define,
so an `AttributeError` escapes (with the runlock left acquired).  Tasks
in any other status are untouched. -/
def Task.restore (meta : TaskMeta) (runlock : RunlockView) (now : String) :
    Except PyErr TaskMeta :=
  if meta.status = .running then
    if ¬ runlock.fileExists then
      .ok (Task.statusWrite meta .failed now)
    else
      if runlock.heldElsewhere then
        .ok meta
      else
        .error (.attributeError "Task object has no attribute _update")
  else
    .ok meta

/-- `Task.set` (`msks/task.py:349-360`).  Returns the metadata as it is
left on disk, whether a push (metadata write) happened, and the Python
return value (`False` on the equal-value early return, `None`
otherwise). -/
def Task.set (meta : TaskMeta) (key : String) (value : PVal) (now : String) :
    TaskMeta × Bool × Option Bool :=
  let props := meta.properties.getD []
  match props.lookup key with
  | some old =>
    if pyEq old value then
      (meta, false, some false)
    else
      ({ meta with properties := some (alSet key value props), updated := now }, true, none)
  | none =>
    ({ meta with properties := some (alSet key value props), updated := now }, true, none)

/-! ## Per-task store (`msks/storage.py`, `FileTaskStore`) -/

/-- `FileTaskStore.filepath` as the class effectively defines it: the
class body contains two `def filepath` statements (lines 113-117 and
179-180) and in Python the later binding wins, so the reachable method is
`os.path.join(self._root, file)` with no absolute-path check. -/
def FileTaskStore.filepath (root : String) (file : String) : String :=
  osPathJoin root file

/-- The first, shadowed definition of `FileTaskStore.filepath`
(`msks/storage.py:113-117`), which raises `IOError` on absolute paths —
dead code under Python semantics. -/
def FileTaskStore.filepathShadowed (root : String) (file : String) : Except PyErr String :=
  if isAbs file then .error (.ioError "Only relative paths allowed")
  else .ok (osPathJoin root file)

/-- `Task.filepath` (`msks/task.py:318-322`): rejects absolute paths,
otherwise joins under the task directory. -/
def Task.filepath (root : String) (file : String) : Except PyErr String :=
  if isAbs file then .error (.ioError "Only relative paths allowed")
  else .ok (osPathJoin root file)

/-- `FileTaskStore.set` (`msks/storage.py:136-153`).  A `#`-prefixed key
addresses the `meta.json` document: an equal stored scalar value is a
no-op, anything else rewrites the document through `_push`
(`msks/storage.py:206-212`), which bumps `updated`.  Any other key writes
a sibling `<key>.json`/`<key>.blob` file and leaves the metadata alone.
Returns the metadata as left on disk, whether a push happened, and the
sibling file written (if any). -/
def FileTaskStore.set (meta : List (String × PVal)) (key : String) (value : PVal)
    (now : String) : List (String × PVal) × Bool × Option String :=
  if strStartsWith key "#" then
    let k := String.mk (key.data.drop 1)
    match meta.lookup k with
    | some old =>
      if isScalar value ∧ pyEq old value then
        (meta, false, none)
      else
        (alSet "updated" (.vstr now) (alSet k value meta), true, none)
    | none =>
      (alSet "updated" (.vstr now) (alSet k value meta), true, none)
  else
    -- `bytes`/`bytearray` payloads (written as `.blob`) have no `PVal`
    -- counterpart; every modeled value lands in `<key>.json`.
    (meta, false, some (key ++ ".json"))

/-! ## Python value coercion (`msks/environment.py`, `Argument.coerce`) -/

def isDigit (c : Char) : Bool := '0' ≤ c ∧ c ≤ '9'

def digitsToNat (cs : List Char) : Nat :=
  cs.foldl (fun acc c => acc * 10 + (c.toNat - '0'.toNat)) 0

/-- `int(value)` on a string: optional sign followed by digits
(whitespace stripping and underscore separators are not modeled). -/
def pyParseInt (s : String) : Except PyErr Int :=
  let core : List Char → Except PyErr Int := fun cs =>
    if cs ≠ [] ∧ cs.all isDigit then .ok (digitsToNat cs : Int)
    else .error (.valueError "invalid literal for int")
  match s.data with
  | '-' :: rest => (core rest).map (fun n => -n)
  | '+' :: rest => core rest
  | cs => core cs

/-- `float(value)` on a string, for the plain decimal forms
`[sign] digits [. digits]` with at least one digit (scientific notation,
infinities and whitespace are not modeled; the line extractors can only
produce these plain forms).  Returns the exact rational value. -/
def pyParseFloatCore (cs : List Char) : Option Rat :=
  let signed : List Char → Option (Bool × List Char) := fun l =>
    match l with
    | '-' :: rest => some (true, rest)
    | '+' :: rest => some (false, rest)
    | _ => some (false, l)
  match signed cs with
  | some (neg, body) =>
    let intPart := body.takeWhile isDigit
    let rest := body.drop intPart.length
    let checked : Option Rat :=
      match rest with
      | [] => if intPart = [] then none else some (digitsToNat intPart : Rat)
      | '.' :: frac =>
        if frac.all isDigit ∧ (intPart ≠ [] ∨ frac ≠ []) then
          some ((digitsToNat intPart : Rat) + (digitsToNat frac : Rat) / ((10 : Rat) ^ frac.length))
        else none
      | _ => none
    checked.map (fun q => if neg then -q else q)
  | none => none

def pyParseFloat (s : String) : Option Rat := pyParseFloatCore s.data

/-- `str(value)`.  The float rendering is the same injective stand-in used
by the serializer. -/
def pyStrOf : PVal → String
  | .vnone => "None"
  | .vbool b => if b then "True" else "False"
  | .vint n => toString n
  | .vfloat q => jsonFloat q
  | .vstr s => s
  | .vlist _ => "<list>"
  | .vdict _ => "<dict>"

/-- Modelled from the spec: `attributee.primitives.to_logical` is an
external library function; per the specification, booleans are parsed
from a small accepting vocabulary (true/false/yes/no/1/0). -/
def to_logical : PVal → Except PyErr Bool
  | .vbool b => .ok b
  | .vint n => .ok (n ≠ 0)
  | .vstr s =>
    if s = "true" ∨ s = "True" ∨ s = "yes" ∨ s = "1" then .ok true
    else if s = "false" ∨ s = "False" ∨ s = "no" ∨ s = "0" then .ok false
    else .error (.valueError "not a logical value")
  | _ => .error (.valueError "not a logical value")

def pyInt : PVal → Except PyErr Int
  | .vint n => .ok n
  | .vbool b => .ok (if b then 1 else 0)
  | .vfloat q => .ok (Int.tdiv q.num (q.den : Int))
  | .vstr s => pyParseInt s
  | _ => .error (.valueError "invalid int")

def pyFloat : PVal → Except PyErr Rat
  | .vfloat q => .ok q
  | .vint n => .ok (n : Rat)
  | .vbool b => .ok (if b then 1 else 0)
  | .vstr s =>
    match pyParseFloat s with
    | some q => .ok q
    | none => .error (.valueError "could not convert string to float")
  | _ => .error (.valueError "invalid float")

/-! ## Entry points (`msks/environment.py`, `Argument` / `Entrypoint`) -/

inductive ArgumentType where
  | int | float | bool | string
deriving DecidableEq, Repr

/-- One declared entry-point argument (`Argument`): type, default value,
significance flag. -/
structure ArgumentDecl where
  type : ArgumentType
  default : PVal
  significant : Bool

/-- `Argument.coerce` (`msks/environment.py:97-106`). -/
def ArgumentDecl.coerce (d : ArgumentDecl) (v : PVal) : Except PyErr PVal :=
  match v with
  | .vnone => .ok .vnone
  | _ =>
    match d.type with
    | .int => (pyInt v).map .vint
    | .float => (pyFloat v).map .vfloat
    | .bool => (to_logical v).map .vbool
    | .string => .ok (.vstr (pyStrOf v))

/-- Entry-point declaration.  Observers are not part of any claim settled
here and are omitted. -/
structure Entrypoint where
  command : String
  arguments : List (String × ArgumentDecl)
  environment : List (String × String)
  artifacts : List String

/-- Phase 1 of `Entrypoint.merge`: defaults of the admitted arguments, in
declaration order (`dict([(k, v.coerce(v.default)) ...])`). -/
def mergeDefaults (decls : List (String × ArgumentDecl)) (insig : Bool) :
    Except PyErr (List (String × PVal)) :=
  match decls with
  | [] => .ok []
  | (k, d) :: rest =>
    if insig ∨ d.significant then
      match d.coerce d.default with
      | .error e => .error e
      | .ok v =>
        match mergeDefaults rest insig with
        | .error e => .error e
        | .ok tail => .ok ((k, v) :: tail)
    else mergeDefaults rest insig

/-- Phase 2 of `Entrypoint.merge`: `arg.update({k: coerce(v) ...})` over
the supplied arguments, restricted to declared arguments that pass the
significance filter. -/
def mergeSupplied (decls : List (String × ArgumentDecl)) (insig : Bool)
    (acc : List (String × PVal)) : List (String × String) → Except PyErr (List (String × PVal))
  | [] => .ok acc
  | (k, v) :: rest =>
    match decls.lookup k with
    | some d =>
      if insig ∨ d.significant then
        match d.coerce (.vstr v) with
        | .error e => .error e
        | .ok c => mergeSupplied decls insig (alSet k c acc) rest
      else mergeSupplied decls insig acc rest
    | none => mergeSupplied decls insig acc rest

def isVNone : PVal → Bool
  | .vnone => true
  | _ => false

/-- `Entrypoint.merge` (`msks/environment.py:149-158`): defaults for the
admitted arguments, overridden by the coerced supplied values, raising if
any admitted argument is left unset (`None`). -/
def Entrypoint.merge (ep : Entrypoint) (args : List (String × String)) (insig : Bool) :
    Except PyErr (List (String × PVal)) :=
  match mergeDefaults ep.arguments insig with
  | .error e => .error e
  | .ok base =>
    match mergeSupplied ep.arguments insig base args with
    | .error e => .error e
    | .ok merged =>
      if merged.any (fun p => isVNone p.2) then .error (.runtimeError "Argument not set")
      else .ok merged

/-! ## Tasks and the collection store (`msks/storage.py`, `LocalTasksStore`) -/

/-- The facets of a stored `Task` object that the collection-level
operations consult: its identifier, its metadata status / arguments /
dependency map, its cached entry point, and its directory. -/
structure TaskM where
  identifier : String
  status : TaskStatus
  dependencies : List (String × List String)
  arguments : List (String × String)
  ep : Entrypoint
  root : String

/-- In-memory state of a `LocalTasksStore`: catalog `id → task` and tag
map `tag → id`, both insertion-ordered as Python dicts. -/
structure Store where
  tasks : List (String × TaskM)
  tags : List (String × String)

/-- `LocalTasksStore.search` (`msks/storage.py:343-345`): the task ids
beginning with the given string, in catalog order. -/
def LocalTasksStore.search (st : Store) (pfx : String) : List String :=
  (st.tasks.map Prod.fst).filter (fun k => strStartsWith k pfx)

/-- `LocalTasksStore.get` (`msks/storage.py:329-341`): an exact tag match
redirects the identifier; then an exact task id is returned; otherwise a
unique id match by leading string wins; anything else is `None`. -/
def LocalTasksStore.get (st : Store) (identifier : String) : Option TaskM :=
  let identifier :=
    match st.tags.lookup identifier with
    | some target => target
    | none => identifier
  match st.tasks.lookup identifier with
  | some t => some t
  | none =>
    match LocalTasksStore.search st identifier with
    | [c] => st.tasks.lookup c
    | _ => none

/-- `Task.argument` (`msks/task.py:281-286`): the fully merged
(insignificant included) argument value, `None` when the entry point does
not define the name. -/
def TaskM.argument (t : TaskM) (name : String) : Except PyErr (Option PVal) :=
  match t.ep.merge t.arguments true with
  | .error e => .error e
  | .ok args => .ok (args.lookup name)

/-- One pass of the scan inside `LocalTasksStore.dependencies`
(`msks/storage.py:426-436`): `none` when some predecessor is missing or
`failed`; otherwise the `complete` predecessors in dependency-map order
together with the readiness flag. -/
def scanDeps (st : Store) : List String → Option (List TaskM × Bool)
  | [] => some ([], true)
  | dep :: rest =>
    match LocalTasksStore.get st dep with
    | none => none
    | some d =>
      if d.status = .failed then none
      else
        match scanDeps st rest with
        | none => none
        | some (l, r) =>
          if d.status = .complete then some (d :: l, r) else some (l, false)

/-- Outcome of `LocalTasksStore.dependencies` over a trace of store
snapshots (one snapshot per loop iteration; `wait()` advances to the next
snapshot). -/
inductive DepResult where
  | res (r : Option (List TaskM))
  | raised (e : PyErr)
  | runsOn

/-- `LocalTasksStore.dependencies` (`msks/storage.py:419-443`).  Each
iteration scans one snapshot; when not ready and `wait` is set, the call
blocks in `self.wait(task.dependencies)` — which first raises if any
dependency id is not an exact catalog key — and retries against the next
snapshot.  `runsOn` reports that the supplied snapshot trace was exhausted
with the loop still running. -/
def LocalTasksStore.dependenciesRun : List Store → TaskM → Bool → DepResult
  | [], _, _ => .runsOn
  | st :: rest, task, wait =>
    match scanDeps st (task.dependencies.map Prod.fst) with
    | none => .res none
    | some (l, ready) =>
      if ready ∨ ¬ wait then .res (if ready then some l else none)
      else
        if (task.dependencies.map Prod.fst).any (fun d => (st.tasks.lookup d).isNone) then
          .raised (.runtimeError "Unknown task")
        else
          LocalTasksStore.dependenciesRun rest task wait

/-! ## `LocalTasksStore.wait` (`msks/storage.py:258-275`)

The watcher polls are supplied as a trace: one `(changes, elapsed)` pair
per loop iteration, `elapsed` being `time() - start` observed at that
iteration (the source clamps it with `max(0, ...)`). -/

def waitLoop (timeout : Int) : List (Bool × Int) → Nat → Option Bool × Nat
  | [], n => (none, n)
  | (changes, elapsedRaw) :: rest, n =>
    let elapsed : Int := max 0 elapsedRaw
    if changes then (some true, n + 1)
    else if timeout > 0 ∧ elapsed ≥ timeout then (some false, n + 1)
    else waitLoop timeout rest (n + 1)

/-- `LocalTasksStore.wait`: unknown-task precheck, then the polling loop.
The result pairs the returned boolean (`none` when the supplied poll
trace is exhausted with the loop still running) with the number of polls
consumed. -/
def LocalTasksStore.wait (st : Store) (tasks : Option (List String)) (timeout : Int)
    (polls : List (Bool × Int)) : Except PyErr (Option Bool × Nat) :=
  match tasks with
  | some ts =>
    if ts.any (fun t => (st.tasks.lookup t).isNone) then
      .error (.runtimeError "Unknown task")
    else .ok (waitLoop timeout polls 0)
  | none => .ok (waitLoop timeout polls 0)

/-! ## `Task.run` (`msks/task.py:84-165`)

The run of a task as an explicit-state function.  The filesystem is the
list of existing paths; the outcome of `Environment.setup` is an input;
the observable side effects (status writes, unlinks, symlinks, and —
were they ever produced — artifact copies and directory removals) are
collected in order in a trace.  There is no spawn effect: after the
`running` status write the source reads
`self.entrypoint.observers.iterations` (`msks/task.py:149`) on
`Entrypoint.observers`, which is declared as a plain list
(`msks/environment.py:129`), so an `AttributeError` escapes before
`env.run` is ever reached and the child process, the exit-code test and
the `complete`/`failed` writes below it are dead code.  (Corroborating
that this block is broken: `msks/task.py:13` imports `FileWriter`,
`IterativeMeasuresAggregator` and `MeasuresAggregator` from `msks.log`,
none of which `msks/log.py` defines.) -/

inductive Effect where
  | statusSet (s : TaskStatus)
  | unlink (path : String)
  | symlink (src dst : String)
  | copyFile (src dst : String)
  | removeDir (path : String)
deriving DecidableEq, Repr

def Effect.isCopyFile : Effect → Bool
  | .copyFile _ _ => true
  | _ => false

def Effect.isRemoveDir : Effect → Bool
  | .removeDir _ => true
  | _ => false

/-- Outcome of the dependency-staging loop: success, an exception raised
after `_status(FAILED)` was written, or an exception raised without a
status write (the `IOError` from `Task.filepath` on an absolute resource
name escapes before any status update). -/
inductive StageOut where
  | staged (effs : List Effect)
  | failedRaise (e : PyErr) (effs : List Effect)
  | raise (e : PyErr) (effs : List Effect)

/-- The effects performed up to the point the staging loop stopped. -/
def StageOut.effects : StageOut → List Effect
  | .staged effs => effs
  | .failedRaise _ effs => effs
  | .raise _ effs => effs

/-- Staging of the files of one dependency (`msks/task.py:109-118`):
resolve the source path inside the dependency's directory, raise when it
does not exist, replace an existing link and create the symlink
`<dep_id>_<file>` in the task directory. -/
def stageFiles (dep : TaskM) (did : String) (root : String) (fs : List String) :
    List String → StageOut
  | [] => .staged []
  | file :: rest =>
    if isAbs file then .raise (.ioError "Only relative paths allowed") []
    else
      let src := osPathJoin dep.root file
      let dst := osPathJoin root (did ++ "_" ++ file)
      if ¬ fs.contains src then
        .failedRaise (.runtimeError "File not found in dependency") []
      else
        let effs := (if fs.contains dst then [Effect.unlink dst] else []) ++ [Effect.symlink src dst]
        match stageFiles dep did root fs rest with
        | .staged es => .staged (effs ++ es)
        | .failedRaise e es => .failedRaise e (effs ++ es)
        | .raise e es => .raise e (effs ++ es)

/-- The dependency-validation and staging loop of `Task.run`
(`msks/task.py:101-118`): every declared predecessor must appear in the
supplied list with status `complete`, and each of its consumed files is
symlinked into the task directory. -/
def stageDeps (deps : List TaskM) (root : String) (fs : List String) :
    List (String × List String) → StageOut
  | [] => .staged []
  | (did, files) :: rest =>
    match deps.find? (fun d => d.identifier == did) with
    | none => .failedRaise (.runtimeError "Dependency not found") []
    | some d =>
      if d.status ≠ .complete then
        .failedRaise (.runtimeError "Dependent task not complete") []
      else
        match stageFiles d did root fs files with
        | .staged es =>
          match stageDeps deps root fs rest with
          | .staged es' => .staged (es ++ es')
          | .failedRaise e es' => .failedRaise e (es ++ es')
          | .raise e es' => .raise e (es ++ es')
        | .failedRaise e es => .failedRaise e es
        | .raise e es => .raise e es

/-- Result of the embedded `Task.run`: the Python return value (or the
escaped exception), the metadata as left on disk, and the ordered effect
trace. -/
structure RunOutcome where
  result : Except PyErr Bool
  meta : TaskMeta
  effects : List Effect

/-- `Task.run` (`msks/task.py:84-165`).  Early returns for
`complete`/`failed` (unless forced) and `running`; dependency staging;
`preparing`; environment setup (failure → `failed`); `running`.  The
observer wiring that follows (`msks/task.py:149-155`) then reads
`self.entrypoint.observers.iterations` — `Entrypoint.observers` is a
plain list (`msks/environment.py:129`) with no `iterations` attribute —
so every run that gets this far raises `AttributeError` right after the
`running` status write, before anything is spawned, and the task is left
stuck in `running`.  No artifact matching, copying or run-directory
removal appears anywhere on these paths. -/
def Task.run (meta : TaskMeta) (root : String) (force : Bool) (deps : List TaskM)
    (fs : List String) (envOk : Bool) (now : String) : RunOutcome :=
  if meta.status = .complete ∧ ¬ force then ⟨.ok true, meta, []⟩
  else if meta.status = .failed ∧ ¬ force then ⟨.ok false, meta, []⟩
  else if meta.status = .running then ⟨.ok true, meta, []⟩
  else
    match stageDeps deps root fs meta.dependencies with
    | .failedRaise e effs =>
      ⟨.error e, Task.statusWrite meta .failed now, effs ++ [.statusSet .failed]⟩
    | .raise e effs => ⟨.error e, meta, effs⟩
    | .staged effs =>
      let meta1 := Task.statusWrite meta .preparing now
      let effs1 := effs ++ [Effect.statusSet .preparing]
      if ¬ envOk then
        ⟨.ok false, Task.statusWrite meta1 .failed now, effs1 ++ [.statusSet .failed]⟩
      else
        let meta2 := Task.statusWrite meta1 .running now
        ⟨.error (.attributeError "list object has no attribute iterations"), meta2,
         effs1 ++ [Effect.statusSet .running]⟩

/-! ## Steps extractor (`msks/log.py`, `StepsExtractor`)

The handler closure over `_data`/`_state`, as a state machine over lines.
Values are floats when `float()` succeeds and verbatim strings otherwise.
Regular-expression metacharacters in the configured `step`/`delimiter`
strings are not modeled: both are matched literally, as with the
defaults. -/

inductive SVal where
  | num (q : Rat)
  | str (s : String)
deriving DecidableEq, Repr

abbrev Row := List (String × SVal)

structure Emis where
  kind : String
  offset : Option Int
  data : List Row
deriving DecidableEq, Repr

structure StepsState where
  data : List Row
  offset : Option Int
  step : Option Int
deriving DecidableEq, Repr

def stepsInit : StepsState := ⟨[], none, none⟩

structure StepsCfg where
  step : String
  delimiter : String

def stepsDefault : StepsCfg := ⟨"step", ":"⟩

/-- `line.strip("\n")`. -/
def stripNL (cs : List Char) : List Char :=
  ((cs.dropWhile (· = '\n')).reverse.dropWhile (· = '\n')).reverse

def dropLit (lit : List Char) (cs : List Char) : Option (List Char) :=
  match lit, cs with
  | [], rest => some rest
  | l :: ls, c :: rest => if c = l then dropLit ls rest else none
  | _ :: _, [] => none

def dropSpaces (cs : List Char) : List Char := cs.dropWhile (· = ' ')

/-- `re.match` of `"{step} *{delim} *([0-9]+)"` against the line,
returning the captured integer. -/
def stepMatch (step delim : String) (cs : List Char) : Option Nat :=
  match dropLit step.data cs with
  | none => none
  | some r1 =>
    match dropLit delim.data (dropSpaces r1) with
    | none => none
    | some r2 =>
      let digits := (dropSpaces r2).takeWhile isDigit
      if digits = [] then none else some (digitsToNat digits)

def isNameChar (c : Char) : Bool := c.isAlpha ∨ isDigit c ∨ c = '_' ∨ c = '-'

/-- `try: value = float(value) except ValueError: pass` — the value kept
as an exact rational when `float()` succeeds, verbatim otherwise. -/
def floatOrStr (raw : String) : SVal :=
  match pyParseFloat raw with
  | some q => .num q
  | none => .str raw

/-- `re.match` of `"([a-zA-Z0-9_-]+) *{delim} *(-?[0-9\.]+)"`, returning
the captured name and the value (parsed as float when possible, kept
verbatim otherwise). -/
def valueMatch (delim : String) (cs : List Char) : Option (String × SVal) :=
  let name := cs.takeWhile isNameChar
  if name = [] then none
  else
    match dropLit delim.data (dropSpaces (cs.drop name.length)) with
    | none => none
    | some r2 =>
      let body := dropSpaces r2
      let (sign, digits) :=
        match body with
        | '-' :: rest => (['-'], rest.takeWhile (fun c => isDigit c ∨ c = '.'))
        | rest => (([] : List Char), rest.takeWhile (fun c => isDigit c ∨ c = '.'))
      if digits = [] then none
      else some (String.mk name, floatOrStr (String.mk (sign ++ digits)))

/-- `dostep` (`msks/log.py:106-119`): advance (or anchor) the step
counter, and when the dense series is shorter than
`step - offset + 1`, extend it with empty rows and emit a snapshot.  In
every state the handler can reach, `step` and `offset` are set together
(in an artificial state with `step` set but no `offset` the Python code
would raise a `TypeError`; the model leaves such a state unchanged). -/
def dostep (st : StepsState) (arg : Option Int) : StepsState × List Emis :=
  let st :=
    match st.step with
    | none =>
      let k := arg.getD 0
      { st with step := some k, offset := some k }
    | some s =>
      match arg with
      | some k => if s < k then { st with step := some k } else st
      | none => st
  match st.step, st.offset with
  | some s, some o =>
    if (st.data.length : Int) ≥ s - o + 1 then (st, [])
    else
      let d := st.data ++ List.replicate (s - o + 1 - (st.data.length : Int)).toNat []
      ({ st with data := d }, [⟨"steps", st.offset, d⟩])
  | _, _ => (st, [])

/-- The handler callback of `StepsExtractor` (`msks/log.py:121-149`):
terminal emission on `None`, step lines via `dostep`, measurement lines
recorded into the current row. -/
def StepsExtractor.handle (cfg : StepsCfg) (st : StepsState) (line : Option String) :
    StepsState × List Emis :=
  match line with
  | none => (st, [⟨"steps", st.offset, st.data⟩])
  | some l =>
    let cs := stripNL l.data
    match stepMatch cfg.step cfg.delimiter cs with
    | some k => dostep st (some (k : Int))
    | none =>
      match valueMatch cfg.delimiter cs with
      | some (name, v) =>
        let out := dostep st none
        match out.1.step, out.1.offset with
        | some s, some o =>
          let i := (s - o).toNat
          ({ out.1 with data := out.1.data.set i (alSet name v (out.1.data.getD i [])) }, out.2)
        | _, _ => out
      | none => (st, [])

/-- Feed a sequence of lines (`some line`) and terminals (`none`) through
the handler, collecting all emissions in order. -/
def StepsExtractor.feed (cfg : StepsCfg) (st : StepsState) :
    List (Option String) → StepsState × List Emis
  | [] => (st, [])
  | l :: rest =>
    let out := StepsExtractor.handle cfg st l
    let fin := StepsExtractor.feed cfg out.1 rest
    (fin.1, out.2 ++ fin.2)

/-! ## Argument-reference normalization
(`msks/storage.py:445-473`, `LocalTasksStore._normalize_arguments`)

Every argument value is scanned for tokens of the pattern
`@(:?[a-zA-Z0-9_]+):(:?[^ ]+)`.  References that name an argument of the
predecessor are inlined as its value; other references become dependency
edges and are replaced by the staged link name `<id>_<resource>` (or the
predecessor's file path when `global_paths`).  The source threads one
shared `dict` of `set`s through the substitutions; the model collects the
`(id, resource)` edges in encounter order and folds them into the same
insertion-ordered, deduplicated map, each resource list sorted at the
end (`{k: sorted(list(v))}`). -/

def isWordChar (c : Char) : Bool := c.isAlpha ∨ isDigit c ∨ c = '_'

/-- Match the reference pattern right after a `@`: group 1 is an optional
leading `:` (the pattern says `(:?...)`, not `(?:...)`) followed by a
non-empty word-character run, then the separator `:`, then group 2 — a
maximal non-empty run of non-space characters (the group's own optional
`:` is absorbed by `[^ ]+`).  Returns both groups and the rest of the
line after the match. -/
def refMatchTail (g1pre : List Char) (body : List Char) :
    Option (List Char × List Char × List Char) :=
  let w := body.takeWhile isWordChar
  if w = [] then none
  else
    match body.drop w.length with
    | ':' :: r2 =>
      let v := r2.takeWhile (fun c => ¬ (c = ' '))
      if v = [] then none else some (g1pre ++ w, v, r2.drop v.length)
    | _ => none

def refMatch (cs : List Char) : Option (List Char × List Char × List Char) :=
  match cs with
  | ':' :: rest =>
    match refMatchTail [':'] rest with
    | some r => some r
    | none => refMatchTail [] cs
  | _ => refMatchTail [] cs

/-- The `replace` callback (`msks/storage.py:451-467`): resolve the
referenced task through `get`, inline its argument value when the
resource names one, otherwise record a dependency edge and substitute the
link name (or the file path under `global_paths`). -/
def refReplace (st : Store) (globalPaths : Bool) (g1 g2 : List Char) :
    Except PyErr (String × List (String × String)) :=
  let taskRef := String.mk g1
  let resource := String.mk g2
  match LocalTasksStore.get st taskRef with
  | none => .error (.runtimeError "Dependency reference not found")
  | some task =>
    match task.argument resource with
    | .error e => .error e
    | .ok (some a) => .ok (pyStrOf a, [])
    | .ok none =>
      if globalPaths then
        match Task.filepath task.root resource with
        | .error e => .error e
        | .ok p => .ok (p, [(task.identifier, resource)])
      else
        .ok (task.identifier ++ "_" ++ resource, [(task.identifier, resource)])

/-- Left-to-right, non-overlapping scan of one value (`re.sub`).  The
`Nat` argument is recursion fuel; a fuel of the character count is always
sufficient since every step consumes at least one character. -/
def refScan (st : Store) (gp : Bool) : Nat → List Char →
    Except PyErr (List Char × List (String × String))
  | 0, cs => .ok (cs, [])
  | _, [] => .ok ([], [])
  | Nat.succ n, '@' :: rest =>
    (match refMatch rest with
     | some (g1, g2, rest') =>
       match refReplace st gp g1 g2 with
       | .error e => .error e
       | .ok (repl, edges) =>
         match refScan st gp n rest' with
         | .error e => .error e
         | .ok (tail, edges') => .ok (repl.data ++ tail, edges ++ edges')
     | none =>
       match refScan st gp n rest with
       | .error e => .error e
       | .ok (tail, edges) => .ok ('@' :: tail, edges))
  | Nat.succ n, c :: rest =>
    match refScan st gp n rest with
    | .error e => .error e
    | .ok (tail, edges) => .ok (c :: tail, edges)

/-- Substitution over all argument values, in mapping order, collecting
the dependency edges. -/
def processArgs (st : Store) (gp : Bool) : List (String × String) →
    Except PyErr (List (String × String) × List (String × String))
  | [] => .ok ([], [])
  | (k, v) :: rest =>
    match refScan st gp v.data.length v.data with
    | .error e => .error e
    | .ok (cs, edges) =>
      match processArgs st gp rest with
      | .error e => .error e
      | .ok (tail, edges') => .ok ((k, String.mk cs) :: tail, edges ++ edges')

/-- `dependencies.setdefault(id, set()).add(resource)`. -/
def depAdd (deps : List (String × List String)) (id res : String) :
    List (String × List String) :=
  match deps.lookup id with
  | some l => if l.contains res then deps else alSet id (l ++ [res]) deps
  | none => deps ++ [(id, [res])]

def buildDeps (edges : List (String × String)) : List (String × List String) :=
  (edges.foldl (fun acc e => depAdd acc e.1 e.2) []).map (fun p => (p.1, sortStrings p.2))

def LocalTasksStore.normalizeArguments (st : Store) (arguments : List (String × String))
    (globalPaths : Bool) :
    Except PyErr (List (String × String) × List (String × List String)) :=
  match processArgs st globalPaths arguments with
  | .error e => .error e
  | .ok (processed, edges) => .ok (processed, buildDeps edges)

/-! ## Task identity inside `LocalTasksStore.create`
(`msks/storage.py:365-405`)

`create` normalizes the arguments, expands the command, and computes
`taskid = dict_hash(dict(repository=..., commit=..., entrypoint=...,
arguments=entrypoint.merge(arguments), dependencies=...))` — `merge` with
its default `insignificant=False`, so only significant arguments enter
the identity.  The command expansion does not feed the hash and is not
needed here. -/

def depsToPVal (deps : List (String × List String)) : List (String × PVal) :=
  deps.map (fun p => (p.1, PVal.vlist (p.2.map PVal.vstr)))

def LocalTasksStore.createId (st : Store) (repository commit : String)
    (entrypoints : List (String × Entrypoint)) (entrypoint : String)
    (arguments : List (String × String)) : Except PyErr String :=
  match entrypoints.lookup entrypoint with
  | none => .error (.runtimeError "Entrypoint not found")
  | some ep =>
    match LocalTasksStore.normalizeArguments st arguments false with
    | .error e => .error e
    | .ok (args, deps) =>
      match ep.merge args false with
      | .error e => .error e
      | .ok merged =>
        .ok (dict_hash (.vdict [("repository", .vstr repository), ("commit", .vstr commit),
          ("entrypoint", .vstr entrypoint), ("arguments", .vdict merged),
          ("dependencies", .vdict (depsToPVal deps))]))

/-! ## Environment canonicalisation (`msks/environment.py`)

`_order_multi` (lines 45-59) recursively sorts mappings by key and sorts
lists by `extract_key` (keys of a mapping element, the element itself for
a list, a singleton otherwise).  Python's `sorted` compares dict items as
`(key, value)` tuples — with the distinct keys of a real mapping only the
keys are ever compared — and raises `TypeError` on heterogeneous
element-key lists; the model totalizes the element-key order by
comparing serialized forms, which is irrelevant to the canonicalisation
theorem (sorting is applied to already-identical lists) and agrees with
Python on the homogeneous string lists of real environment specs. -/

def extractKey : PVal → List String
  | .vdict xs => xs.map Prod.fst
  | .vlist xs => pvalDumpsList xs
  | v => [pvalDumps v]

def strListLe : List String → List String → Bool
  | [], _ => true
  | _ :: _, [] => false
  | a :: as, b :: bs => if a = b then strListLe as bs else strLe a b

mutual
def order_multi : PVal → PVal
  | .vlist xs =>
    .vlist (insSortBy (fun a b => strListLe (extractKey a) (extractKey b)) (orderMultiList xs))
  | .vdict xs => .vdict (insSortBy (fun p q => strLe p.1 q.1) (orderMultiEntries xs))
  | v => v
def orderMultiList : List PVal → List PVal
  | [] => []
  | x :: xs => order_multi x :: orderMultiList xs
def orderMultiEntries : List (String × PVal) → List (String × PVal)
  | [] => []
  | (k, v) :: xs => (k, order_multi v) :: orderMultiEntries xs
end

/-- `line.strip()` — Python whitespace strip. -/
def pyIsSpace (c : Char) : Bool :=
  c = ' ' ∨ c = '\t' ∨ c = '\n' ∨ c = '\r' ∨ c = '\x0b' ∨ c = '\x0c'

def pyStripWS (s : String) : String :=
  String.mk (((s.data.dropWhile pyIsSpace).reverse.dropWhile pyIsSpace).reverse)

/-- `line.strip(" \n\r")`. -/
def stripSNR (s : String) : String :=
  let inSet : Char → Bool := fun c => c = ' ' ∨ c = '\n' ∨ c = '\r'
  String.mk (((s.data.dropWhile inSet).reverse.dropWhile inSet).reverse)

/-- The shell-spec filter (`msks/environment.py:266`): drop comment lines
and lines that are blank up to spaces and newlines. -/
def shellFilterLines (lines : List String) : List String :=
  lines.filter (fun l => ¬ strStartsWith (pyStripWS l) "#" ∧ ¬ (stripSNR l = ""))

/-- `Environment.environment_identifier` (`msks/environment.py:242-273`),
starting from the parsed conda document and the raw lines of the
optional pip and shell files: attach `_pip` (the lines verbatim) and
`_shell` (the filtered lines joined), pop `name`, canonicalise with
`_order_multi` and hash. -/
def Environment.environment_identifier (conda : List (String × PVal))
    (pipLines : Option (List String)) (shellLines : Option (List String)) : String :=
  let c1 :=
    match pipLines with
    | some ls => alSet "_pip" (PVal.vlist (ls.map PVal.vstr)) conda
    | none => conda
  let c2 :=
    match shellLines with
    | some ls => alSet "_shell" (PVal.vstr (String.join (shellFilterLines ls))) c1
    | none => c1
  let c3 := c2.filter (fun p => ¬ (p.1 = "name"))
  dict_hash (order_multi (.vdict c3))

/-! ### Structural equivalence of spec documents

`PEquiv a b` holds when `b` is obtained from `a` by permuting the
entries of mappings, at any depth, leaving everything else (including
list element order) unchanged — the "permuting mapping keys" of the
specification.  The mapping case relates the entries of `a` pointwise to
an intermediate list `zs` (same keys in the same order, equivalent
values) and lets the entries of `b` be any permutation of `zs`; the
pointwise value relation is expressed through the `vlist` constructors to
keep the predicate strictly positive. -/

inductive PEquiv : PVal → PVal → Prop where
  | vnone : PEquiv .vnone .vnone
  | vbool (b : Bool) : PEquiv (.vbool b) (.vbool b)
  | vint (n : Int) : PEquiv (.vint n) (.vint n)
  | vfloat (q : Rat) : PEquiv (.vfloat q) (.vfloat q)
  | vstr (s : String) : PEquiv (.vstr s) (.vstr s)
  | vlistNil : PEquiv (.vlist []) (.vlist [])
  | vlistCons (x y : PVal) (xs ys : List PVal) :
      PEquiv x y → PEquiv (.vlist xs) (.vlist ys) → PEquiv (.vlist (x :: xs)) (.vlist (y :: ys))
  | vdict (xs zs ys : List (String × PVal)) :
      xs.map Prod.fst = zs.map Prod.fst →
      PEquiv (.vlist (xs.map Prod.snd)) (.vlist (zs.map Prod.snd)) →
      zs.Perm ys →
      PEquiv (.vdict xs) (.vdict ys)

/-- Well-formed documents: every mapping has pairwise-distinct keys (true
of anything parsed from YAML/JSON). -/
inductive WFKeys : PVal → Prop where
  | vnone : WFKeys .vnone
  | vbool (b : Bool) : WFKeys (.vbool b)
  | vint (n : Int) : WFKeys (.vint n)
  | vfloat (q : Rat) : WFKeys (.vfloat q)
  | vstr (s : String) : WFKeys (.vstr s)
  | vlist (xs : List PVal) : (∀ x ∈ xs, WFKeys x) → WFKeys (.vlist xs)
  | vdict (xs : List (String × PVal)) :
      (∀ p ∈ xs, WFKeys p.2) → (xs.map Prod.fst).Nodup → WFKeys (.vdict xs)

/-! ## Auxiliary notions used by the theorem statements -/

/-- Whether a supplied argument key names a `significant` declared
argument of the entry point. -/
def sigKey (ep : Entrypoint) (k : String) : Bool :=
  match ep.arguments.lookup k with
  | some d => d.significant
  | none => false

/-- The significant entries of a supplied argument map.  "Two argument
maps that agree on all significant arguments" is formalized as equality
of these sublists. -/
def significantOnly (ep : Entrypoint) (args : List (String × String)) :
    List (String × String) :=
  args.filter (fun p => sigKey ep p.1)

/-- Feed plain lines (no terminal) and keep only the resulting state. -/
def StepsExtractor.processLines (cfg : StepsCfg) (st : StepsState)
    (lines : List String) : StepsState :=
  (StepsExtractor.feed cfg st (lines.map some)).1

/-- The anchor the amended claim predicts for `offset`: the step number
of the first matched line when it is a step line, `0` when the first
matched line is a measurement line, undefined while nothing matched. -/
def firstAnchor (cfg : StepsCfg) : List String → Option Int
  | [] => none
  | l :: rest =>
    let cs := stripNL l.data
    match stepMatch cfg.step cfg.delimiter cs with
    | some k => some (k : Int)
    | none =>
      match valueMatch cfg.delimiter cs with
      | some _ => some 0
      | none => firstAnchor cfg rest

/-- Density invariant of the extractor state: whenever a current step
exists, the offset exists, does not exceed it, and the series is exactly
`step - offset + 1` rows long. -/
def StepsDense (st : StepsState) : Prop :=
  ∀ s, st.step = some s → ∃ o, st.offset = some o ∧ o ≤ s ∧ (st.data.length : Int) = s - o + 1

/-- The full reachable-state invariant of the extractor: `step` and
`offset` are anchored together, the series is empty before the anchor,
and the series is dense afterwards. -/
def StepsInv (st : StepsState) : Prop :=
  (st.step = none ↔ st.offset = none) ∧ (st.step = none → st.data = []) ∧ StepsDense st

/-! ## Concrete fixtures used by witnesses and counterexamples -/

def epEmpty : Entrypoint := ⟨"true", [], [], []⟩

/-- A completed predecessor task `P` with no declared arguments. -/
def taskP : TaskM := ⟨"P", .complete, [], [], epEmpty, "/tasks/P"⟩

def storeP : Store := ⟨[("P", taskP)], []⟩

/-- `train` entry point: `data` is significant with default `"d"`,
`note` is insignificant with default `""`. -/
def epTrain : Entrypoint :=
  ⟨"train {{data}} {{note}}",
   [("data", ⟨.string, .vstr "d", true⟩), ("note", ⟨.string, .vstr "", false⟩)],
   [], []⟩

def epsTrain : List (String × Entrypoint) := [("train", epTrain)]

def metaRunningFx : TaskMeta :=
  ⟨.running, "2024-01-01 00:00:00.000000", "2024-01-01 00:00:01.000000",
   "repo", "c0ffee", "train", [("data", "d")], [], ["train", "d", ""], [], none⟩

def metaPendingFx : TaskMeta :=
  ⟨.pending, "2024-01-01 00:00:00.000000", "2024-01-01 00:00:01.000000",
   "repo", "c0ffee", "train", [("data", "d")], [("P", ["weights.bin"])],
   ["train", "d", ""], [], none⟩

def metaPropsFx : TaskMeta :=
  ⟨.complete, "2024-01-01 00:00:00.000000", "2024-01-01 00:00:01.000000",
   "repo", "c0ffee", "train", [("data", "d")], [], ["train", "d", ""], [],
   some [("note", .vstr "keep"), ("score", .vfloat (1/2))]⟩

/-- Two stored tasks plus a tag `ab` that collides with the shared id
leading-string `ab`. -/
def taskA : TaskM := ⟨"abc1", .complete, [], [], epEmpty, "/tasks/abc1"⟩
def taskB : TaskM := ⟨"abd2", .complete, [], [], epEmpty, "/tasks/abd2"⟩
def storeAB : Store := ⟨[("abc1", taskA), ("abd2", taskB)], [("ab", "abd2")]⟩

/-- Snapshots for the dependency loop: first `P` still running, then `P`
complete. -/
def taskPRunning : TaskM := ⟨"P", .running, [], [], epEmpty, "/tasks/P"⟩
def storePRunning : Store := ⟨[("P", taskPRunning)], []⟩
def taskQ : TaskM :=
  ⟨"Q", .pending, [("P", ["weights.bin"])], [("model", "P_weights.bin")], epTrain, "/tasks/Q"⟩
def taskPFailed : TaskM := ⟨"P", .failed, [], [], epEmpty, "/tasks/P"⟩
def storePFailed : Store := ⟨[("P", taskPFailed)], []⟩

/-- Pending task without dependencies (counterexample to the artifact
claim). -/
def metaSoloFx : TaskMeta :=
  ⟨.pending, "2024-01-01 00:00:00.000000", "2024-01-01 00:00:01.000000",
   "repo", "c0ffee", "train", [("data", "d")], [], ["train", "d", ""], [], none⟩

/-- Environment fixtures for the canonicalisation witness: the same conda
document once as written, once with the entries of the nested pip mapping
transposed (`depsW2`), and once additionally with the top-level entries
rotated (`condaW2`).  `condaWz` is the intermediate document of the
equivalence derivation: top-level order of `condaW1`, values of
`condaW2`. -/
def depsW1 : PVal :=
  .vlist [.vstr "numpy", .vdict [("pip", .vlist [.vstr "torch"]), ("extra", .vstr "x")]]

def depsW2 : PVal :=
  .vlist [.vstr "numpy", .vdict [("extra", .vstr "x"), ("pip", .vlist [.vstr "torch"])]]

def condaW1 : List (String × PVal) :=
  [("name", .vstr "demo"), ("channels", .vstr "defaults"), ("dependencies", depsW1)]

def condaWz : List (String × PVal) :=
  [("name", .vstr "demo"), ("channels", .vstr "defaults"), ("dependencies", depsW2)]

def condaW2 : List (String × PVal) :=
  [("dependencies", depsW2), ("name", .vstr "demo"), ("channels", .vstr "defaults")]

/-! # Theorems -/

/-- C1.  The claim says `restore` resets an orphaned `running` task
(runlock acquirable) to `pending` and leaves a live one (runlock held)
alone.  The source agrees on the held case and on non-`running` tasks,
but on the orphaned path it calls `self._update(TaskStatus.PENDING)` —
`Task` defines no `_update`, so an `AttributeError` escapes and the
status stays `running`; and when the runlock file does not exist at all
(the situation of spec scenario S5) it sets the status to `failed`
instead of `pending`. -/
theorem restore_c1_code_bug :
    Task.restore metaRunningFx ⟨true, false⟩ "2024-01-02 00:00:00.000000"
      = .error (.attributeError "Task object has no attribute _update") ∧
    Task.restore metaRunningFx ⟨false, false⟩ "2024-01-02 00:00:00.000000"
      = .ok { metaRunningFx with status := .failed, updated := "2024-01-02 00:00:00.000000" } ∧
    Task.restore metaRunningFx ⟨true, true⟩ "2024-01-02 00:00:00.000000" = .ok metaRunningFx ∧
    Task.restore { metaRunningFx with status := .pending } ⟨true, false⟩
        "2024-01-02 00:00:00.000000"
      = .ok { metaRunningFx with status := .pending } ∧
    Task.restore { metaRunningFx with status := .complete } ⟨true, false⟩
        "2024-01-02 00:00:00.000000"
      = .ok { metaRunningFx with status := .complete } := by
  refine ⟨rfl, rfl, rfl, rfl, rfl⟩

/-- C7.  The claim says the per-task store's `filepath` raises on
absolute paths.  `FileTaskStore` defines `filepath` twice; the second
definition (plain join, `msks/storage.py:179-180`) shadows the first
(the rejecting one, lines 113-117), so the reachable method happily
returns the absolute path itself — `os.path.join` discards the root when
the second component is absolute.  The shadowed first definition and
`Task.filepath` both implement the claimed rejection, which makes the
duplicate definition a slip rather than intent. -/
theorem filepath_c7_code_bug :
    FileTaskStore.filepath "/tasks/T" "/etc/passwd" = "/etc/passwd" ∧
    FileTaskStore.filepathShadowed "/tasks/T" "/etc/passwd"
      = .error (.ioError "Only relative paths allowed") ∧
    Task.filepath "/tasks/T" "/etc/passwd" = .error (.ioError "Only relative paths allowed") ∧
    FileTaskStore.filepath "/tasks/T" "out/model.bin" = "/tasks/T/out/model.bin" := by
  refine ⟨rfl, rfl, rfl, rfl⟩

/-- C5 counterexample.  The claim says `wait` with `timeout ≤ 0` polls
exactly once and returns (`false` when the single poll reports no
change).  In the source the `timeout > 0 and elapsed >= timeout` guard
can never fire for `timeout ≤ 0`, so the loop keeps polling: with polls
`[no-change, change]` it consumes two polls and returns `true`, and with
fifty silent polls (however large `elapsed` grows) it is still running. -/
theorem wait_c5_counterexample :
    LocalTasksStore.wait ⟨[], []⟩ none (-1) [(false, 0), (true, 0)] = .ok (some true, 2) ∧
    LocalTasksStore.wait ⟨[], []⟩ none (-1) (List.replicate 50 (false, 100000))
      = .ok (none, 50) ∧
    LocalTasksStore.wait ⟨[], []⟩ none 0 [(false, 7), (true, 7)] = .ok (some true, 2) := by
  refine ⟨rfl, rfl, rfl⟩

/-- Characterization of the polling loop for non-positive timeouts,
generalized over the poll counter. -/
theorem waitLoop_nonpos_general (timeout : Int) (h : timeout ≤ 0)
    (polls : List (Bool × Int)) (n₀ : Nat) :
    waitLoop timeout polls n₀ =
      (match polls.findIdx? (fun p => p.1) with
       | some i => (some true, n₀ + i + 1)
       | none => (none, n₀ + polls.length)) := by
  induction polls generalizing n₀ with
  | nil => simp [waitLoop]
  | cons p rest ih =>
    obtain ⟨changes, elapsed⟩ := p
    cases changes with
    | true => simp [waitLoop, List.findIdx?_cons]
    | false =>
      have hng : ¬ (timeout > 0 ∧ max 0 elapsed ≥ timeout) := by
        intro hc
        omega
      simp only [waitLoop, if_neg, hng, if_false]
      rw [ih (n₀ + 1)]
      simp [List.findIdx?_cons]
      cases hfi : List.findIdx? (fun p => p.1) rest with
      | none => simp [List.length_cons]; omega
      | some i => simp; omega

/-- C5 amended.  With `timeout ≤ 0`, `wait` never returns `false`: it
polls (sleeping between polls) until some poll reports a change — then
returns `true` after exactly that many polls — and keeps running forever
on a silent watcher; `timeout ≤ 0` is the blocking mode, not poll-once. -/
theorem wait_c5_nonpositive_blocks (st : Store) (timeout : Int) (h : timeout ≤ 0)
    (polls : List (Bool × Int)) :
    LocalTasksStore.wait st none timeout polls =
      .ok (match polls.findIdx? (fun p => p.1) with
           | some i => (some true, i + 1)
           | none => (none, polls.length)) := by
  show Except.ok (waitLoop timeout polls 0) = _
  rw [waitLoop_nonpos_general timeout h polls 0]
  cases hfi : List.findIdx? (fun p => p.1) polls <;> simp

/-- C5 witness: the amended theorem applied to `timeout = -1` and a
concrete poll trace. -/
theorem wait_c5_nonpositive_blocks_witness :
    LocalTasksStore.wait ⟨[], []⟩ none (-1) [(false, 3), (false, 9), (true, 12)]
      = .ok (some true, 3) := by
  have h := wait_c5_nonpositive_blocks ⟨[], []⟩ (-1) (by decide)
    [(false, 3), (false, 9), (true, 12)]
  simpa using h

theorem stageFiles_no_copy (dep : TaskM) (did root : String) (fs : List String) :
    ∀ files : List String,
      ((stageFiles dep did root fs files).effects.filter
        (fun e => e.isCopyFile || e.isRemoveDir)) = [] := by
  intro files
  induction files with
  | nil => rfl
  | cons file rest ih =>
    cases hsf : stageFiles dep did root fs rest <;>
    rw [hsf] at ih <;>
    by_cases habs : isAbs file = true <;>
    by_cases hsrc : fs.contains (osPathJoin dep.root file) = true <;>
    by_cases hdst : fs.contains (osPathJoin root (did ++ "_" ++ file)) = true <;>
    simp_all [stageFiles, StageOut.effects, List.filter_append,
      Effect.isCopyFile, Effect.isRemoveDir]

theorem stageDeps_no_copy (deps : List TaskM) (root : String) (fs : List String) :
    ∀ dd : List (String × List String),
      ((stageDeps deps root fs dd).effects.filter
        (fun e => e.isCopyFile || e.isRemoveDir)) = [] := by
  intro dd
  induction dd with
  | nil => rfl
  | cons hd rest ih =>
    obtain ⟨did, files⟩ := hd
    cases hfind : deps.find? (fun d => d.identifier == did) with
    | none => simp [stageDeps, hfind, StageOut.effects]
    | some d =>
      by_cases hst : d.status ≠ TaskStatus.complete
      · simp [stageDeps, hfind, hst, StageOut.effects]
      · have hfiles := stageFiles_no_copy d did root fs files
        cases hsf : stageFiles d did root fs files <;> rw [hsf] at hfiles <;>
        cases hsd : stageDeps deps root fs rest <;> rw [hsd] at ih <;>
        simp_all [stageDeps, StageOut.effects, List.filter_append]

/-- On no path of `Task.run` does an artifact-copy or directory-removal
effect occur. -/
theorem run_no_copy (meta : TaskMeta) (root : String) (force : Bool) (deps : List TaskM)
    (fs : List String) (envOk : Bool) (now : String) :
    ((Task.run meta root force deps fs envOk now).effects.filter
      (fun e => e.isCopyFile || e.isRemoveDir)) = [] := by
  have h := stageDeps_no_copy deps root fs meta.dependencies
  rw [Task.run]
  split
  · rfl
  · split
    · rfl
    · split
      · rfl
      · cases hsd : stageDeps deps root fs meta.dependencies with
        | failedRaise e es =>
          rw [hsd] at h
          simp only [StageOut.effects] at h
          show List.filter (fun e => e.isCopyFile || e.isRemoveDir)
              (es ++ [Effect.statusSet .failed]) = []
          rw [List.filter_append, h]
          rfl
        | raise e es =>
          rw [hsd] at h
          simpa [StageOut.effects] using h
        | staged es =>
          rw [hsd] at h
          simp only [StageOut.effects] at h
          cases envOk
          · show List.filter (fun e => e.isCopyFile || e.isRemoveDir)
                ((es ++ [Effect.statusSet .preparing]) ++ [Effect.statusSet .failed]) = []
            rw [List.filter_append, List.filter_append, h]
            rfl
          · show List.filter (fun e => e.isCopyFile || e.isRemoveDir)
                ((es ++ [Effect.statusSet .preparing]) ++ [Effect.statusSet .running]) = []
            rw [List.filter_append, List.filter_append, h]
            rfl

/-- C4.  The claim says a run whose child exits with code 0 scans the run
directory, copies the artifact-matched files into the task directory,
sets `complete` and removes the run directory.  None of this can happen
on the cited lines: a run that passes the guards, stages its
dependencies and sets up its environment writes `running` and then
raises `AttributeError` — `Entrypoint.observers` is a plain list with no
`iterations` attribute (`msks/task.py:149`, `msks/environment.py:129`) —
before any child is spawned, so the exit-code test and the
`complete`/`failed` handling behind it are dead code and the task is
left stuck in `running`; and no path of `run` copies a file or removes a
directory (there is no artifact logic and no separate run directory,
`cwd=self._root`). -/
theorem run_c4_code_bug :
    (Task.run metaSoloFx "/tasks/T" false [] ["/tasks/T/model.bin"] true
        "2024-01-02 00:00:00.000000").result
      = .error (.attributeError "list object has no attribute iterations") ∧
    (Task.run metaSoloFx "/tasks/T" false [] ["/tasks/T/model.bin"] true
        "2024-01-02 00:00:00.000000").meta.status = .running ∧
    (Task.run metaSoloFx "/tasks/T" false [] ["/tasks/T/model.bin"] true
        "2024-01-02 00:00:00.000000").effects
      = [.statusSet .preparing, .statusSet .running] ∧
    (∀ (meta : TaskMeta) (root : String) (force : Bool) (deps : List TaskM)
        (fs : List String) (envOk : Bool) (now : String),
      ((Task.run meta root force deps fs envOk now).effects.filter
        (fun e => e.isCopyFile || e.isRemoveDir)) = []) :=
  ⟨rfl, rfl, by decide, run_no_copy⟩

/-- C10.  Setting a key to a value Python-equal to the stored one is a
complete no-op on persistent state, both for `Task.set` on the
`properties` mapping (which returns `False` without pushing, leaving
`updated`, `status` and every other field untouched) and for
`FileTaskStore.set` on a `#`-prefixed key whose stored value is an equal
scalar. -/
theorem set_c10_equal_noop :
    (∀ (meta : TaskMeta) (props : List (String × PVal)) (key : String) (value old : PVal)
        (now : String),
        meta.properties = some props → props.lookup key = some old → pyEq old value = true →
        Task.set meta key value now = (meta, false, some false)) ∧
    (∀ (raw : List (String × PVal)) (key : String) (value old : PVal) (now : String),
        strStartsWith key "#" = true →
        raw.lookup (String.mk (key.data.drop 1)) = some old →
        isScalar value = true → pyEq old value = true →
        FileTaskStore.set raw key value now = (raw, false, none)) := by
  constructor
  · intro meta props key value old now hprops hold heq
    simp only [Task.set, hprops, Option.getD_some, hold, heq, if_true]
  · intro raw key value old now hpre hold hscalar heq
    simp only [FileTaskStore.set, hpre, if_true, hold]
    rw [if_pos ⟨hscalar, heq⟩]

/-- C10 witness: an equal string property on `Task.set`, and a
`#`-prefixed integer metadata key set to the Python-equal float. -/
theorem set_c10_equal_noop_witness :
    Task.set metaPropsFx "note" (.vstr "keep") "2024-01-02 00:00:00.000000"
      = (metaPropsFx, false, some false) ∧
    FileTaskStore.set [("status", .vstr "complete"), ("progress", .vint 3)] "#progress"
        (.vfloat 3) "2024-01-02 00:00:00.000000"
      = ([("status", .vstr "complete"), ("progress", .vint 3)], false, none) := by
  constructor
  · exact set_c10_equal_noop.1 metaPropsFx [("note", .vstr "keep"), ("score", .vfloat (1/2))]
      "note" (.vstr "keep") (.vstr "keep") "2024-01-02 00:00:00.000000" rfl rfl (by decide)
  · exact set_c10_equal_noop.2 [("status", .vstr "complete"), ("progress", .vint 3)]
      "#progress" (.vfloat 3) (.vint 3) "2024-01-02 00:00:00.000000" (by decide) rfl
      (by decide) (by decide)

/-- C8.  `LocalTasksStore.get` resolves in order: an exact tag match
redirects to the tagged id (so a tag wins over an exact task id and over
any id leading-string match), then an exact task id, then a unique id
match by leading string; an absent identifier or an ambiguous match
yields `none`. -/
theorem get_c8_resolution (st : Store) :
    (∀ id target t, st.tags.lookup id = some target → st.tasks.lookup target = some t →
        LocalTasksStore.get st id = some t) ∧
    (∀ id t, st.tags.lookup id = none → st.tasks.lookup id = some t →
        LocalTasksStore.get st id = some t) ∧
    (∀ id c, st.tags.lookup id = none → st.tasks.lookup id = none →
        LocalTasksStore.search st id = [c] → LocalTasksStore.get st id = st.tasks.lookup c) ∧
    (∀ id, st.tags.lookup id = none → st.tasks.lookup id = none →
        (LocalTasksStore.search st id).length ≠ 1 → LocalTasksStore.get st id = none) := by
  refine ⟨?_, ?_, ?_, ?_⟩
  · intro id target t htag htask
    simp only [LocalTasksStore.get, htag, htask]
  · intro id t htag htask
    simp only [LocalTasksStore.get, htag, htask]
  · intro id c htag htask hsearch
    simp only [LocalTasksStore.get, htag, htask, hsearch]
  · intro id htag htask hlen
    simp only [LocalTasksStore.get, htag, htask]
    match hs : LocalTasksStore.search st id with
    | [] => rfl
    | [c] => exact absurd (by simp [hs]) hlen
    | a :: b :: rest => rfl

/-- C8 witness: in a store with ids `abc1`, `abd2` and a tag `ab`
pointing at `abd2`: the tag wins although `ab` is a leading string of
both ids; `abc1` resolves exactly; `abd` resolves by unique leading
string; `a` is ambiguous. -/
theorem get_c8_resolution_witness :
    LocalTasksStore.get storeAB "ab" = some taskB ∧
    LocalTasksStore.get storeAB "abc1" = some taskA ∧
    LocalTasksStore.get storeAB "abd" = some taskB ∧
    LocalTasksStore.get storeAB "a" = none := by
  refine ⟨?_, ?_, ?_, ?_⟩
  · exact (get_c8_resolution storeAB).1 "ab" "abd2" taskB rfl rfl
  · exact (get_c8_resolution storeAB).2.1 "abc1" taskA rfl rfl
  · exact ((get_c8_resolution storeAB).2.2.1 "abd" "abd2" rfl rfl (by rfl)).trans rfl
  · exact (get_c8_resolution storeAB).2.2.2 "a" rfl rfl (by decide)

theorem scanDeps_all_complete (st : Store) :
    ∀ (deps : List String) (l : List TaskM) (r : Bool),
      scanDeps st deps = some (l, r) → ∀ d ∈ l, d.status = .complete := by
  intro deps
  induction deps with
  | nil =>
    intro l r h d hd
    simp only [scanDeps] at h
    cases h
    simp at hd
  | cons dep rest ih =>
    intro l r h d hd
    rw [scanDeps] at h
    cases hget : LocalTasksStore.get st dep with
    | none => simp only [hget] at h; exact Option.noConfusion h
    | some t =>
      simp only [hget] at h
      by_cases hfail : t.status = TaskStatus.failed
      · rw [if_pos hfail] at h; exact Option.noConfusion h
      · rw [if_neg hfail] at h
        cases hrest : scanDeps st rest with
        | none => simp only [hrest] at h; exact Option.noConfusion h
        | some p =>
          obtain ⟨l₀, r₀⟩ := p
          simp only [hrest] at h
          by_cases hcomp : t.status = TaskStatus.complete
          · rw [if_pos hcomp] at h
            injection h with h'
            have h1 : t :: l₀ = l := congrArg Prod.fst h'
            subst h1
            rcases List.mem_cons.mp hd with hd | hd
            · exact hd ▸ hcomp
            · exact ih l₀ r₀ hrest d hd
          · rw [if_neg hcomp] at h
            injection h with h'
            have h1 : l₀ = l := congrArg Prod.fst h'
            subst h1
            exact ih l₀ r₀ hrest d hd

theorem scanDeps_ready_length (st : Store) :
    ∀ (deps : List String) (l : List TaskM),
      scanDeps st deps = some (l, true) → l.length = deps.length := by
  intro deps
  induction deps with
  | nil =>
    intro l h
    simp only [scanDeps] at h
    cases h
    rfl
  | cons dep rest ih =>
    intro l h
    rw [scanDeps] at h
    cases hget : LocalTasksStore.get st dep with
    | none => simp only [hget] at h; exact Option.noConfusion h
    | some t =>
      simp only [hget] at h
      by_cases hfail : t.status = TaskStatus.failed
      · rw [if_pos hfail] at h; exact Option.noConfusion h
      · rw [if_neg hfail] at h
        cases hrest : scanDeps st rest with
        | none => simp only [hrest] at h; exact Option.noConfusion h
        | some p =>
          obtain ⟨l₀, r₀⟩ := p
          simp only [hrest] at h
          by_cases hcomp : t.status = TaskStatus.complete
          · rw [if_pos hcomp] at h
            injection h with h'
            have h1 : t :: l₀ = l := congrArg Prod.fst h'
            have h2 : r₀ = true := congrArg Prod.snd h'
            subst h1
            simp [ih l₀ (h2 ▸ hrest)]
          · rw [if_neg hcomp] at h
            injection h with h'
            have h2 : false = true := congrArg Prod.snd h'
            exact Bool.noConfusion h2

theorem scanDeps_bad_none (st : Store) :
    ∀ deps : List String,
      (∃ dep ∈ deps, LocalTasksStore.get st dep = none ∨
        ∃ d, LocalTasksStore.get st dep = some d ∧ d.status = .failed) →
      scanDeps st deps = none := by
  intro deps
  induction deps with
  | nil =>
    intro h
    obtain ⟨dep, hmem, _⟩ := h
    simp at hmem
  | cons dep rest ih =>
    intro h
    obtain ⟨dep', hmem, hbad⟩ := h
    rw [scanDeps]
    rcases List.mem_cons.mp hmem with heq | hmem'
    · subst heq
      rcases hbad with hbad | ⟨d, hget, hfail⟩
      · simp only [hbad]
      · simp only [hget, if_pos hfail]
    · cases hget : LocalTasksStore.get st dep with
      | none => simp only [hget]
      | some t =>
        simp only [hget]
        by_cases hfail : t.status = TaskStatus.failed
        · rw [if_pos hfail]
        · rw [if_neg hfail, ih ⟨dep', hmem', hbad⟩]

/-- C3.  With `wait=true`, `dependencies` returns a list only when every
predecessor it resolved in the deciding snapshot was `complete`; the
returned list then contains exactly one (complete) task per dependency
entry, in map order; and whenever the current snapshot lacks a
predecessor or shows one `failed`, the call returns `nil` at once
(regardless of `wait`). -/
theorem dependencies_c3_closure :
    (∀ (snaps : List Store) (task : TaskM) (l : List TaskM),
        LocalTasksStore.dependenciesRun snaps task true = .res (some l) →
        (∀ d ∈ l, d.status = .complete) ∧ l.length = task.dependencies.length) ∧
    (∀ (st : Store) (rest : List Store) (task : TaskM) (wait : Bool),
        (∃ dep ∈ task.dependencies.map Prod.fst,
          LocalTasksStore.get st dep = none ∨
          ∃ d, LocalTasksStore.get st dep = some d ∧ d.status = .failed) →
        LocalTasksStore.dependenciesRun (st :: rest) task wait = .res none) := by
  constructor
  · intro snaps
    induction snaps with
    | nil =>
      intro task l h
      exact DepResult.noConfusion h
    | cons st rest ih =>
      intro task l h
      rw [LocalTasksStore.dependenciesRun] at h
      cases hscan : scanDeps st (task.dependencies.map Prod.fst) with
      | none =>
        rw [hscan] at h
        injection h with h'
        exact Option.noConfusion h'
      | some p =>
        obtain ⟨l₀, ready⟩ := p
        rw [hscan] at h
        cases ready with
        | true =>
          simp only [true_or, if_true] at h
          injection h with h'
          injection h' with h''
          cases h''
          exact ⟨scanDeps_all_complete st _ l true hscan,
            (scanDeps_ready_length st _ l hscan).trans (List.length_map _ _)⟩
        | false =>
          simp only [Bool.false_eq_true, false_or, not_true_eq_false, if_false] at h
          split at h
          · exact DepResult.noConfusion h
          · exact ih task l h
  · intro st rest task wait hbad
    rw [LocalTasksStore.dependenciesRun, scanDeps_bad_none st _ hbad]

/-- C3 witness: task `Q` depends on `P`.  Over the snapshots
(`P` running, then `P` complete) the waiting call returns `[P]`, every
returned task `complete`; over a snapshot with `P` failed it returns
`nil` immediately. -/
theorem dependencies_c3_closure_witness :
    LocalTasksStore.dependenciesRun [storePRunning, storeP] taskQ true = .res (some [taskP]) ∧
    (∀ d ∈ [taskP], d.status = TaskStatus.complete) ∧
    LocalTasksStore.dependenciesRun [storePFailed] taskQ true = .res none := by
  refine ⟨rfl, (dependencies_c3_closure.1 [storePRunning, storeP] taskQ [taskP] rfl).1, ?_⟩
  exact dependencies_c3_closure.2 storePFailed [] taskQ true
    ⟨"P", by decide, Or.inr ⟨taskPFailed, rfl, rfl⟩⟩

theorem mergeSupplied_sig (ep : Entrypoint) :
    ∀ (args : List (String × String)) (acc : List (String × PVal)),
      mergeSupplied ep.arguments false acc args
        = mergeSupplied ep.arguments false acc (significantOnly ep args) := by
  intro args
  induction args with
  | nil => intro acc; rfl
  | cons hd rest ih =>
    intro acc
    obtain ⟨k, v⟩ := hd
    rw [mergeSupplied]
    cases hl : ep.arguments.lookup k with
    | none =>
      have hf : sigKey ep k = false := by simp [sigKey, hl]
      simp only [significantOnly, List.filter_cons, hf, Bool.false_eq_true, if_false]
      rw [ih acc]
      rfl
    | some d =>
      cases hsig : d.significant with
      | false =>
        have hf : sigKey ep k = false := by simp [sigKey, hl, hsig]
        simp only [significantOnly, List.filter_cons, hf, Bool.false_eq_true, if_false,
          Bool.false_eq_true, false_or, if_false, hsig]
        rw [ih acc]
        rfl
      | true =>
        have hf : sigKey ep k = true := by simp [sigKey, hl, hsig]
        simp only [significantOnly, List.filter_cons, hf, if_true]
        conv_rhs => rw [mergeSupplied]
        simp only [hl, hsig, Bool.false_eq_true, false_or, if_true]
        cases hc : d.coerce (.vstr v) with
        | error e => rfl
        | ok c =>
          dsimp only
          rw [ih (alSet k c acc)]
          rfl

theorem processArgs_sig (st : Store) (gp : Bool) (ep : Entrypoint) :
    ∀ (args p : List (String × String)) (es : List (String × String)),
      processArgs st gp args = .ok (p, es) →
      ∃ es', processArgs st gp (significantOnly ep args) = .ok (significantOnly ep p, es') := by
  intro args
  induction args with
  | nil =>
    intro p es h
    simp only [processArgs] at h
    injection h with h'
    have hp : ([] : List (String × String)) = p := congrArg Prod.fst h'
    subst hp
    exact ⟨[], rfl⟩
  | cons hd rest ih =>
    intro p es h
    obtain ⟨k, v⟩ := hd
    rw [processArgs] at h
    cases hsc : refScan st gp v.data.length v.data with
    | error e => rw [hsc] at h; exact Except.noConfusion h
    | ok out =>
      obtain ⟨cs, edges⟩ := out
      simp only [hsc] at h
      cases hrest : processArgs st gp rest with
      | error e => simp only [hrest] at h; exact Except.noConfusion h
      | ok out' =>
        obtain ⟨tail, edges'⟩ := out'
        simp only [hrest] at h
        injection h with h'
        have hp : (k, String.mk cs) :: tail = p := congrArg Prod.fst h'
        subst hp
        obtain ⟨es₀, hes₀⟩ := ih tail edges' hrest
        cases hk : sigKey ep k with
        | false =>
          simp only [significantOnly, List.filter_cons, hk, Bool.false_eq_true, if_false]
          simp only [significantOnly] at hes₀
          exact ⟨es₀, hes₀⟩
        | true =>
          simp only [significantOnly, List.filter_cons, hk, if_true]
          refine ⟨edges ++ es₀, ?_⟩
          rw [processArgs, hsc]
          simp only [significantOnly] at hes₀
          rw [hes₀]

theorem merge_sig_eq (ep : Entrypoint) (p1 p2 : List (String × String))
    (h : significantOnly ep p1 = significantOnly ep p2) :
    ep.merge p1 false = ep.merge p2 false := by
  rw [Entrypoint.merge, Entrypoint.merge]
  cases hd : mergeDefaults ep.arguments false with
  | error e => rfl
  | ok base =>
    dsimp only
    rw [mergeSupplied_sig ep p1 base, mergeSupplied_sig ep p2 base, h]

/-- C2 counterexample.  The two argument maps agree on every significant
argument (the only significant argument, `data`, is defaulted in both)
and differ only in the value supplied for the insignificant `note` —
yet `create` computes different task identifiers, because the reference
`@P:weights.bin` inside the insignificant value contributes a dependency
edge `P → weights.bin`, and the dependency map is part of the identity
hash. -/
theorem createId_c2_counterexample :
    significantOnly epTrain [("note", "@P:weights.bin")]
      = significantOnly epTrain [("note", "plain")] ∧
    (LocalTasksStore.createId storeP "repo" "c0ffee" epsTrain "train"
        [("note", "@P:weights.bin")]).toOption.isSome = true ∧
    (LocalTasksStore.createId storeP "repo" "c0ffee" epsTrain "train"
        [("note", "plain")]).toOption.isSome = true ∧
    (LocalTasksStore.createId storeP "repo" "c0ffee" epsTrain "train"
        [("note", "@P:weights.bin")]).toOption
      ≠ (LocalTasksStore.createId storeP "repo" "c0ffee" epsTrain "train"
          [("note", "plain")]).toOption := by
  refine ⟨rfl, rfl, rfl, by decide⟩

/-- C2 amended.  Two creations whose argument maps supply the same
significant entries, and whose reference normalization succeeds with
equal dependency maps, produce the same task identifier (the identity
hash covers repository, commit, entry point, the merged significant
arguments, and the dependency map; insignificant values may still differ
and may change the expanded command).  Without the equal-dependency
condition the claim fails: an `@task:resource` reference inside an
insignificant value adds a dependency edge that enters the hash. -/
theorem createId_c2_significance (st : Store) (repository commit : String)
    (entrypoints : List (String × Entrypoint)) (name : String) (ep : Entrypoint)
    (args1 args2 p1 p2 : List (String × String)) (d1 d2 : List (String × List String))
    (hep : entrypoints.lookup name = some ep)
    (hsig : significantOnly ep args1 = significantOnly ep args2)
    (hn1 : LocalTasksStore.normalizeArguments st args1 false = .ok (p1, d1))
    (hn2 : LocalTasksStore.normalizeArguments st args2 false = .ok (p2, d2))
    (hdeps : d1 = d2) :
    LocalTasksStore.createId st repository commit entrypoints name args1
      = LocalTasksStore.createId st repository commit entrypoints name args2 := by
  have hpa1 : ∃ es, processArgs st false args1 = .ok (p1, es) ∧ buildDeps es = d1 := by
    rw [LocalTasksStore.normalizeArguments] at hn1
    cases hpa : processArgs st false args1 with
    | error e => rw [hpa] at hn1; exact Except.noConfusion hn1
    | ok out =>
      obtain ⟨pp, es⟩ := out
      simp only [hpa] at hn1
      injection hn1 with h'
      have hfst : pp = p1 := congrArg Prod.fst h'
      have hsnd : buildDeps es = d1 := congrArg Prod.snd h'
      refine ⟨es, ?_, hsnd⟩
      rw [hfst]
  have hpa2 : ∃ es, processArgs st false args2 = .ok (p2, es) ∧ buildDeps es = d2 := by
    rw [LocalTasksStore.normalizeArguments] at hn2
    cases hpa : processArgs st false args2 with
    | error e => rw [hpa] at hn2; exact Except.noConfusion hn2
    | ok out =>
      obtain ⟨pp, es⟩ := out
      simp only [hpa] at hn2
      injection hn2 with h'
      have hfst : pp = p2 := congrArg Prod.fst h'
      have hsnd : buildDeps es = d2 := congrArg Prod.snd h'
      refine ⟨es, ?_, hsnd⟩
      rw [hfst]
  obtain ⟨es1, hes1, hb1⟩ := hpa1
  obtain ⟨es2, hes2, hb2⟩ := hpa2
  have hsp : significantOnly ep p1 = significantOnly ep p2 := by
    obtain ⟨es1', h1'⟩ := processArgs_sig st false ep args1 p1 es1 hes1
    obtain ⟨es2', h2'⟩ := processArgs_sig st false ep args2 p2 es2 hes2
    rw [hsig] at h1'
    rw [h1'] at h2'
    injection h2' with h'
    exact congrArg Prod.fst h' 
  have hmerge : ep.merge p1 false = ep.merge p2 false := merge_sig_eq ep p1 p2 hsp
  have hbd : buildDeps es1 = buildDeps es2 := by rw [hb1, hb2, hdeps]
  simp only [LocalTasksStore.createId, hep, LocalTasksStore.normalizeArguments,
    hes1, hes2, hmerge, hbd]

/-- C2 witness: the amended theorem at two argument maps differing only
in the (reference-free) value of the insignificant `note`. -/
theorem createId_c2_significance_witness :
    LocalTasksStore.createId storeP "repo" "c0ffee" epsTrain "train" [("note", "a")]
      = LocalTasksStore.createId storeP "repo" "c0ffee" epsTrain "train" [("note", "b")] := by
  exact createId_c2_significance storeP "repo" "c0ffee" epsTrain "train" epTrain
    [("note", "a")] [("note", "b")] [("note", "a")] [("note", "b")] [] []
    rfl rfl rfl rfl rfl

theorem dostep_none_state (st : StepsState) (arg : Option Int)
    (hs : st.step = none) (ho : st.offset = none) (he : st.data = []) :
    (dostep st arg).1 = ⟨[[]], some (arg.getD 0), some (arg.getD 0)⟩ := by
  obtain ⟨data, offset, step⟩ := st
  simp only at hs ho he
  subst hs; subst ho; subst he
  have hguard : ¬ (((0 : Int)) ≥ arg.getD 0 - arg.getD 0 + 1) := by omega
  have harith : (arg.getD 0 - arg.getD 0 + 1 - ((0 : Int))) = 1 := by omega
  simp [dostep, hguard, harith]

theorem dostep_some_state (st : StepsState) (arg : Option Int) (s o : Int)
    (hs : st.step = some s) (ho : st.offset = some o)
    (hlen : (st.data.length : Int) = s - o + 1) :
    (dostep st arg).1.offset = some o ∧
    ∃ s', (dostep st arg).1.step = some s' ∧ s ≤ s' ∧
      ((dostep st arg).1.data.length : Int) = s' - o + 1 := by
  obtain ⟨data, offset, step⟩ := st
  simp only at hs ho hlen
  subst hs; subst ho
  cases arg with
  | none =>
    have hguard : ((data.length : Int) ≥ s - o + 1) := by omega
    have hres : (dostep ⟨data, some o, some s⟩ none).1 = ⟨data, some o, some s⟩ := by
      simp [dostep, hguard]
    rw [hres]
    exact ⟨rfl, s, rfl, le_refl s, hlen⟩
  | some k =>
    by_cases hk : s < k
    · have hguard : ¬ ((data.length : Int) ≥ k - o + 1) := by omega
      have hres : (dostep ⟨data, some o, some s⟩ (some k)).1
          = ⟨data ++ List.replicate (k - o + 1 - (data.length : Int)).toNat [], some o, some k⟩ := by
        simp [dostep, hk, hguard]
      rw [hres]
      refine ⟨rfl, k, rfl, le_of_lt hk, ?_⟩
      simp only [List.length_append, List.length_replicate]
      omega
    · have hguard : ((data.length : Int) ≥ s - o + 1) := by omega
      have hres : (dostep ⟨data, some o, some s⟩ (some k)).1 = ⟨data, some o, some s⟩ := by
        simp [dostep, hk, hguard]
      rw [hres]
      exact ⟨rfl, s, rfl, le_refl s, hlen⟩

theorem dostep_step_mono (st : StepsState) (arg : Option Int) (s : Int)
    (hs : st.step = some s) :
    ∃ s', (dostep st arg).1.step = some s' ∧ s ≤ s' := by
  obtain ⟨data, offset, step⟩ := st
  simp only at hs
  subst hs
  cases arg with
  | none =>
    refine ⟨s, ?_, le_refl s⟩
    cases offset with
    | none => rfl
    | some o =>
      by_cases hguard : ((data.length : Int) ≥ s - o + 1) <;> simp [dostep, hguard]
  | some k =>
    by_cases hk : s < k
    · refine ⟨k, ?_, le_of_lt hk⟩
      cases offset with
      | none => simp [dostep, hk]
      | some o =>
        by_cases hguard : ((data.length : Int) ≥ k - o + 1) <;> simp [dostep, hk, hguard]
    · refine ⟨s, ?_, le_refl s⟩
      cases offset with
      | none => simp [dostep, hk]
      | some o =>
        by_cases hguard : ((data.length : Int) ≥ s - o + 1) <;> simp [dostep, hk, hguard]

theorem dostep_inv (st : StepsState) (arg : Option Int) (hinv : StepsInv st) :
    StepsInv (dostep st arg).1 ∧
    (∀ o, st.offset = some o → (dostep st arg).1.offset = some o) := by
  obtain ⟨hc, he, hd⟩ := hinv
  cases hstep : st.step with
  | none =>
    have ho := hc.mp hstep
    have hdata := he hstep
    rw [dostep_none_state st arg hstep ho hdata]
    constructor
    · refine ⟨by simp, by simp, ?_⟩
      intro s hs
      simp only at hs
      injection hs with hs
      refine ⟨arg.getD 0, rfl, by omega, ?_⟩
      simp only [List.length_cons, List.length_nil]
      omega
    · intro o hoo
      rw [hoo] at ho
      exact Option.noConfusion ho
  | some s =>
    have hosome : ∃ o, st.offset = some o := by
      cases hoo : st.offset with
      | none => rw [hc.mpr hoo] at hstep; exact Option.noConfusion hstep
      | some o => exact ⟨o, rfl⟩
    obtain ⟨o, ho⟩ := hosome
    obtain ⟨o', hoo', hle, hlen⟩ := hd s hstep
    have hoe : o' = o := by
      rw [ho] at hoo'
      exact (Option.some.inj hoo').symm
    subst hoe
    obtain ⟨hoff, s', hstep', hle', hlen'⟩ := dostep_some_state st arg s o' hstep ho hlen
    constructor
    · refine ⟨?_, ?_, ?_⟩
      · rw [hstep', hoff]
        simp
      · intro hnone
        rw [hstep'] at hnone
        exact Option.noConfusion hnone
      · intro t ht
        rw [hstep'] at ht
        injection ht with ht
        subst ht
        exact ⟨o', hoff, by omega, hlen'⟩
    · intro o₀ ho₀
      rw [ho] at ho₀
      injection ho₀ with ho₀
      rw [← ho₀]
      exact hoff

theorem handle_none_id (cfg : StepsCfg) (st : StepsState) :
    (StepsExtractor.handle cfg st none).1 = st := rfl

theorem handle_inv (cfg : StepsCfg) (st : StepsState) (line : Option String)
    (hinv : StepsInv st) : StepsInv (StepsExtractor.handle cfg st line).1 := by
  cases line with
  | none => exact hinv
  | some l =>
    rw [StepsExtractor.handle]
    cases hm : stepMatch cfg.step cfg.delimiter (stripNL l.data) with
    | some k =>
      exact (dostep_inv st (some (k : Int)) hinv).1
    | none =>
      cases hv : valueMatch cfg.delimiter (stripNL l.data) with
      | none => exact hinv
      | some p =>
        obtain ⟨name, v⟩ := p
        have hinv' := (dostep_inv st none hinv).1
        obtain ⟨hc', he', hd'⟩ := hinv'
        cases h1 : (dostep st none).1.step with
        | none => simp only [h1]; exact ⟨hc', he', hd'⟩
        | some a =>
          cases h2 : (dostep st none).1.offset with
          | none => simp only [h1, h2]; exact ⟨hc', he', hd'⟩
          | some b =>
            simp only [h1, h2]
            refine ⟨by simp, by simp, ?_⟩
            intro t ht
            simp only at ht
            injection ht with ht
            obtain ⟨o, hoo, hle, hlen⟩ := hd' a h1
            rw [h2] at hoo
            injection hoo with hoo
            refine ⟨b, rfl, by omega, ?_⟩
            simp only [List.length_set]
            omega

theorem handle_offset_frozen (cfg : StepsCfg) (st : StepsState) (line : Option String)
    (o : Int) (hinv : StepsInv st) (ho : st.offset = some o) :
    (StepsExtractor.handle cfg st line).1.offset = some o := by
  cases line with
  | none => exact ho
  | some l =>
    rw [StepsExtractor.handle]
    cases hm : stepMatch cfg.step cfg.delimiter (stripNL l.data) with
    | some k =>
      exact (dostep_inv st (some (k : Int)) hinv).2 o ho
    | none =>
      cases hv : valueMatch cfg.delimiter (stripNL l.data) with
      | none => exact ho
      | some p =>
        obtain ⟨name, v⟩ := p
        have hfro := (dostep_inv st none hinv).2 o ho
        cases h1 : (dostep st none).1.step with
        | none => simp only [h1]; exact hfro
        | some a =>
          cases h2 : (dostep st none).1.offset with
          | none =>
            rw [h2] at hfro
            exact Option.noConfusion hfro
          | some b =>
            simp only [h1, h2]
            rw [h2] at hfro
            exact hfro

theorem handle_step_mono (cfg : StepsCfg) (st : StepsState) (line : Option String)
    (s : Int) (hs : st.step = some s) :
    ∃ s', (StepsExtractor.handle cfg st line).1.step = some s' ∧ s ≤ s' := by
  cases line with
  | none => exact ⟨s, hs, le_refl s⟩
  | some l =>
    rw [StepsExtractor.handle]
    cases hm : stepMatch cfg.step cfg.delimiter (stripNL l.data) with
    | some k =>
      exact dostep_step_mono st (some (k : Int)) s hs
    | none =>
      cases hv : valueMatch cfg.delimiter (stripNL l.data) with
      | none => exact ⟨s, hs, le_refl s⟩
      | some p =>
        obtain ⟨name, v⟩ := p
        obtain ⟨s', hs', hle⟩ := dostep_step_mono st none s hs
        cases h1 : (dostep st none).1.step with
        | none => rw [h1] at hs'; exact Option.noConfusion hs'
        | some a =>
          rw [h1] at hs'
          injection hs' with h3
          cases h2 : (dostep st none).1.offset with
          | none =>
            simp only [h1, h2]
            exact ⟨a, rfl, by omega⟩
          | some b =>
            simp only [h1, h2]
            exact ⟨a, rfl, by omega⟩

theorem processLines_nil (cfg : StepsCfg) (st : StepsState) :
    StepsExtractor.processLines cfg st [] = st := rfl

theorem processLines_cons (cfg : StepsCfg) (st : StepsState) (l : String)
    (rest : List String) :
    StepsExtractor.processLines cfg st (l :: rest)
      = StepsExtractor.processLines cfg ((StepsExtractor.handle cfg st (some l)).1) rest := by
  simp [StepsExtractor.processLines, StepsExtractor.feed]

theorem processLines_inv (cfg : StepsCfg) :
    ∀ (lines : List String) (st : StepsState), StepsInv st →
      StepsInv (StepsExtractor.processLines cfg st lines) := by
  intro lines
  induction lines with
  | nil => intro st h; exact h
  | cons l rest ih =>
    intro st h
    rw [processLines_cons]
    exact ih _ (handle_inv cfg st (some l) h)

theorem processLines_offset_frozen (cfg : StepsCfg) :
    ∀ (lines : List String) (st : StepsState) (o : Int), StepsInv st → st.offset = some o →
      (StepsExtractor.processLines cfg st lines).offset = some o := by
  intro lines
  induction lines with
  | nil => intro st o _ ho; exact ho
  | cons l rest ih =>
    intro st o h ho
    rw [processLines_cons]
    exact ih _ o (handle_inv cfg st (some l) h) (handle_offset_frozen cfg st (some l) o h ho)

theorem processLines_step_mono (cfg : StepsCfg) :
    ∀ (lines : List String) (st : StepsState) (s : Int), st.step = some s →
      ∃ s', (StepsExtractor.processLines cfg st lines).step = some s' ∧ s ≤ s' := by
  intro lines
  induction lines with
  | nil => intro st s hs; exact ⟨s, hs, le_refl s⟩
  | cons l rest ih =>
    intro st s hs
    rw [processLines_cons]
    obtain ⟨s', hs', hle⟩ := handle_step_mono cfg st (some l) s hs
    obtain ⟨s'', hs'', hle'⟩ := ih _ s' hs'
    exact ⟨s'', hs'', le_trans hle hle'⟩

theorem processLines_anchor (cfg : StepsCfg) :
    ∀ (lines : List String) (st : StepsState),
      st.step = none → st.offset = none → st.data = [] →
      (StepsExtractor.processLines cfg st lines).offset = firstAnchor cfg lines := by
  intro lines
  induction lines with
  | nil => intro st _ ho _; exact ho
  | cons l rest ih =>
    intro st hs ho he
    have hinv : StepsInv st := by
      refine ⟨by simp [hs, ho], fun _ => he, ?_⟩
      intro t ht
      rw [hs] at ht
      exact Option.noConfusion ht
    have hinvh : StepsInv (StepsExtractor.handle cfg st (some l)).1 :=
      handle_inv cfg st (some l) hinv
    rw [processLines_cons, firstAnchor]
    cases hm : stepMatch cfg.step cfg.delimiter (stripNL l.data) with
    | some k =>
      have hres : (StepsExtractor.handle cfg st (some l)).1
          = ⟨[[]], some ((k : Int)), some ((k : Int))⟩ := by
        rw [StepsExtractor.handle]
        simp only [hm]
        exact dostep_none_state st (some ((k : Int))) hs ho he
      have hofro := processLines_offset_frozen cfg rest
        ((StepsExtractor.handle cfg st (some l)).1) ((k : Int)) hinvh (by rw [hres])
      exact hofro
    | none =>
      cases hv : valueMatch cfg.delimiter (stripNL l.data) with
      | none =>
        have hres : (StepsExtractor.handle cfg st (some l)).1 = st := by
          rw [StepsExtractor.handle]
          simp only [hm, hv]
        rw [hres]
        exact ih st hs ho he
      | some p =>
        obtain ⟨name, v⟩ := p
        have hanch : (StepsExtractor.handle cfg st (some l)).1.offset = some 0 := by
          rw [StepsExtractor.handle]
          simp only [hm, hv]
          have hres := dostep_none_state st none hs ho he
          cases h1 : (dostep st none).1.step with
          | none => rw [hres] at h1; exact Option.noConfusion h1
          | some a =>
            cases h2 : (dostep st none).1.offset with
            | none => rw [hres] at h2; exact Option.noConfusion h2
            | some b =>
              simp only [h1, h2]
              rw [hres] at h2
              injection h2 with h2
              rw [← h2]
              rfl
        exact processLines_offset_frozen cfg rest _ 0 hinvh hanch

/-- C6 counterexample.  The claim says the first step line seen anchors
`offset`.  When a measurement line precedes the first step line the
implicit `dostep()` anchors `offset` at 0, so after the lines
`loss: 1`, `step: 5` the offset is 0, not the 5 carried by the first
(and only) step line. -/
theorem steps_c6_offset_counterexample :
    stepMatch stepsDefault.step stepsDefault.delimiter (stripNL ("step: 5").data) = some 5 ∧
    (StepsExtractor.processLines stepsDefault stepsInit ["loss: 1", "step: 5"]).offset
      = some 0 ∧
    (StepsExtractor.processLines stepsDefault stepsInit ["loss: 1", "step: 5"]).offset
      ≠ some 5 := by
  refine ⟨by decide, by decide, by decide⟩

unseal Rat.add Rat.mul Rat.inv in
/-- C6 amended.  `offset` is anchored by the first matched line — at the
step number when it is a step line, at 0 when it is a measurement line;
the step counter is monotonically non-decreasing over any line sequence;
the series stays a dense list of row mappings of length
`step - offset + 1`; and the S6 trace (`step: 1`, `loss: 0.5`,
`step: 2`, `loss: 0.2`, terminal) ends in the emission
`{type: "steps", offset: 1, data: [{loss: 0.5}, {loss: 0.2}]}`. -/
theorem steps_c6_extractor :
    (∀ lines : List String,
        (StepsExtractor.processLines stepsDefault stepsInit lines).offset
          = firstAnchor stepsDefault lines) ∧
    (∀ (lines : List String) (st : StepsState) (s : Int), st.step = some s →
        ∃ s', (StepsExtractor.processLines stepsDefault st lines).step = some s' ∧ s ≤ s') ∧
    (∀ lines : List String,
        StepsDense (StepsExtractor.processLines stepsDefault stepsInit lines)) ∧
    (StepsExtractor.feed stepsDefault stepsInit
        [some "step: 1", some "loss: 0.5", some "step: 2", some "loss: 0.2", none]).2
      = [⟨"steps", some 1, [[]]⟩,
         ⟨"steps", some 1, [[("loss", floatOrStr "0.5")], []]⟩,
         ⟨"steps", some 1, [[("loss", floatOrStr "0.5")], [("loss", floatOrStr "0.2")]]⟩] ∧
    floatOrStr "0.5" = SVal.num (1/2) ∧ floatOrStr "0.2" = SVal.num (1/5) := by
  have hinv0 : StepsInv stepsInit := by
    refine ⟨by simp [stepsInit], by simp [stepsInit], ?_⟩
    intro t ht
    simp [stepsInit] at ht
  refine ⟨?_, ?_, ?_, rfl, ?_, ?_⟩
  · intro lines
    exact processLines_anchor stepsDefault lines stepsInit rfl rfl rfl
  · intro lines st s hs
    exact processLines_step_mono stepsDefault lines st s hs
  · intro lines
    exact (processLines_inv stepsDefault lines stepsInit hinv0).2.2
  · rfl
  · rfl

/-- C6 witness: the amended theorem applied to concrete line sequences
(step-line anchor; monotone growth from an anchored state; density). -/
theorem steps_c6_extractor_witness :
    (StepsExtractor.processLines stepsDefault stepsInit ["step: 3", "loss: 7"]).offset
      = firstAnchor stepsDefault ["step: 3", "loss: 7"] ∧
    (∃ s', (StepsExtractor.processLines stepsDefault ⟨[[]], some 2, some 2⟩ ["step: 9"]).step
        = some s' ∧ (2 : Int) ≤ s') ∧
    StepsDense (StepsExtractor.processLines stepsDefault stepsInit ["step: 3"]) := by
  exact ⟨steps_c6_extractor.1 ["step: 3", "loss: 7"],
    steps_c6_extractor.2.1 ["step: 9"] ⟨[[]], some 2, some 2⟩ 2 rfl,
    steps_c6_extractor.2.2.1 ["step: 3"]⟩

/-! ## C9 — environment canonicalisation

Helper lemmas: the code-point order on strings used by `sorted` is total,
transitive and antisymmetric; insertion sort permutes its input and sorts
it; two sorted permutations of a duplicate-free-keyed entry list are
equal; `_order_multi` maps over list elements and mapping values; and
structural equivalence (`PEquiv`) together with well-formed keys is
preserved by the assembly steps of `environment_identifier` and collapsed
to equality by `_order_multi`. -/

theorem charListLe_total : ∀ a b : List Char, charListLe a b = true ∨ charListLe b a = true := by
  intro a
  induction a with
  | nil => intro b; left; rfl
  | cons x xs ih =>
    intro b
    cases b with
    | nil => right; rfl
    | cons y ys =>
      by_cases h1 : x.toNat < y.toNat
      · left; simp [charListLe, h1]
      · by_cases h2 : y.toNat < x.toNat
        · right; simp [charListLe, h2]
        · rcases ih ys with h | h
          · left; simp [charListLe, h1, h2, h]
          · right; simp [charListLe, h1, h2, h]

theorem charListLe_trans : ∀ a b c : List Char,
    charListLe a b = true → charListLe b c = true → charListLe a c = true := by
  intro a
  induction a with
  | nil => intro b c _ _; rfl
  | cons x xs ih =>
    intro b c hab hbc
    cases b with
    | nil => simp [charListLe] at hab
    | cons y ys =>
      cases c with
      | nil => simp [charListLe] at hbc
      | cons z zs =>
        simp only [charListLe] at hab hbc ⊢
        by_cases hxy : x.toNat < y.toNat
        · by_cases hyz : y.toNat < z.toNat
          · have hxz : x.toNat < z.toNat := by omega
            simp [hxz]
          · by_cases hzy : z.toNat < y.toNat
            · simp [hyz, hzy] at hbc
            · have hxz : x.toNat < z.toNat := by omega
              simp [hxz]
        · by_cases hyx : y.toNat < x.toNat
          · simp [hxy, hyx] at hab
          · by_cases hyz : y.toNat < z.toNat
            · have hxz : x.toNat < z.toNat := by omega
              simp [hxz]
            · by_cases hzy : z.toNat < y.toNat
              · simp [hyz, hzy] at hbc
              · have h1 : ¬ x.toNat < z.toNat := by omega
                have h2 : ¬ z.toNat < x.toNat := by omega
                simp [hxy, hyx] at hab
                simp [hyz, hzy] at hbc
                simp [h1, h2]
                exact ih ys zs hab hbc

theorem charListLe_antisymm : ∀ a b : List Char,
    charListLe a b = true → charListLe b a = true → a = b := by
  intro a
  induction a with
  | nil =>
    intro b _ hba
    cases b with
    | nil => rfl
    | cons y ys => simp [charListLe] at hba
  | cons x xs ih =>
    intro b hab hba
    cases b with
    | nil => simp [charListLe] at hab
    | cons y ys =>
      simp only [charListLe] at hab hba
      by_cases hxy : x.toNat < y.toNat
      · have h2 : ¬ y.toNat < x.toNat := by omega
        simp [hxy, h2] at hba
      · by_cases hyx : y.toNat < x.toNat
        · simp [hxy, hyx] at hab
        · have hn : x.toNat = y.toNat := by omega
          have hx : x = y := Char.ext (UInt32.ext hn)
          simp [hxy, hyx] at hab hba
          rw [hx, ih ys hab hba]

theorem strLe_total (a b : String) : strLe a b = true ∨ strLe b a = true :=
  charListLe_total a.data b.data

theorem strLe_trans (a b c : String) (h1 : strLe a b = true) (h2 : strLe b c = true) :
    strLe a c = true :=
  charListLe_trans a.data b.data c.data h1 h2

theorem strLe_antisymm (a b : String) (h1 : strLe a b = true) (h2 : strLe b a = true) : a = b :=
  String.ext (charListLe_antisymm a.data b.data h1 h2)

theorem insSorted_perm (le : α → α → Bool) (x : α) :
    ∀ l : List α, (insSorted le x l).Perm (x :: l) := by
  intro l
  induction l with
  | nil => exact List.Perm.refl _
  | cons y ys ih =>
    by_cases h : le x y = true
    · rw [insSorted, if_pos h]
    · rw [insSorted, if_neg h]
      exact ((ih.cons y).trans (List.Perm.swap x y ys))

theorem insSortBy_perm (le : α → α → Bool) :
    ∀ l : List α, (insSortBy le l).Perm l := by
  intro l
  induction l with
  | nil => exact List.Perm.refl _
  | cons x xs ih => exact (insSorted_perm le x (insSortBy le xs)).trans (ih.cons x)

theorem insSorted_pairwise (le : α → α → Bool)
    (htot : ∀ a b, le a b = true ∨ le b a = true)
    (htrans : ∀ a b c, le a b = true → le b c = true → le a c = true) (x : α) :
    ∀ l : List α, l.Pairwise (fun a b => le a b = true) →
      (insSorted le x l).Pairwise (fun a b => le a b = true) := by
  intro l
  induction l with
  | nil => intro _; simp [insSorted]
  | cons y ys ih =>
    intro hp
    have hhead : ∀ z ∈ ys, le y z = true := fun z hz => List.rel_of_pairwise_cons hp hz
    have htail := hp.of_cons
    by_cases h : le x y = true
    · rw [insSorted, if_pos h]
      refine List.pairwise_cons.mpr ⟨?_, hp⟩
      intro z hz
      rcases List.mem_cons.mp hz with rfl | hz
      · exact h
      · exact htrans x y z h (hhead z hz)
    · rw [insSorted, if_neg h]
      refine List.pairwise_cons.mpr ⟨?_, ih htail⟩
      intro z hz
      have hz' := ((insSorted_perm le x ys).mem_iff).mp hz
      rcases List.mem_cons.mp hz' with rfl | hz'
      · rcases htot z y with h1 | h1
        · exact absurd h1 h
        · exact h1
      · exact hhead z hz'

theorem insSortBy_pairwise (le : α → α → Bool)
    (htot : ∀ a b, le a b = true ∨ le b a = true)
    (htrans : ∀ a b c, le a b = true → le b c = true → le a c = true) :
    ∀ l : List α, (insSortBy le l).Pairwise (fun a b => le a b = true) := by
  intro l
  induction l with
  | nil => exact List.Pairwise.nil
  | cons x xs ih => exact insSorted_pairwise le htot htrans x _ ih

theorem sorted_perm_nodup_keys_eq :
    ∀ (l₁ l₂ : List (String × PVal)), l₁.Perm l₂ →
      l₁.Pairwise (fun p q => strLe p.1 q.1 = true) →
      l₂.Pairwise (fun p q => strLe p.1 q.1 = true) →
      (l₁.map Prod.fst).Nodup → l₁ = l₂ := by
  intro l₁
  induction l₁ with
  | nil => intro l₂ hperm _ _ _; exact hperm.nil_eq
  | cons a t₁ ih =>
    intro l₂ hperm hp1 hp2 hnd
    simp only [List.map_cons, List.nodup_cons] at hnd
    cases l₂ with
    | nil => exact absurd hperm.eq_nil (by simp)
    | cons b t₂ =>
      have hmem : a ∈ b :: t₂ := hperm.mem_iff.mp (List.mem_cons_self a t₁)
      have hab : a = b := by
        rcases List.mem_cons.mp hmem with h | h
        · exact h
        · have h1 : strLe b.1 a.1 = true := List.rel_of_pairwise_cons hp2 h
          have hbm : b ∈ a :: t₁ := hperm.symm.mem_iff.mp (List.mem_cons_self b t₂)
          rcases List.mem_cons.mp hbm with h' | h'
          · exact h'.symm
          · have h2 : strLe a.1 b.1 = true := List.rel_of_pairwise_cons hp1 h'
            have hk : a.1 = b.1 := strLe_antisymm _ _ h2 h1
            have hm : a.1 ∈ t₁.map Prod.fst := by
              rw [hk]; exact List.mem_map_of_mem Prod.fst h'
            exact absurd hm hnd.1
      subst hab
      have hperm' := hperm.cons_inv
      rw [ih t₂ hperm' hp1.of_cons hp2.of_cons hnd.2]

theorem sortPairs_perm_eq (l₁ l₂ : List (String × PVal)) (hperm : l₁.Perm l₂)
    (hnd : (l₁.map Prod.fst).Nodup) :
    insSortBy (fun p q => strLe p.1 q.1) l₁ = insSortBy (fun p q => strLe p.1 q.1) l₂ := by
  have htot : ∀ p q : String × PVal, strLe p.1 q.1 = true ∨ strLe q.1 p.1 = true :=
    fun p q => strLe_total p.1 q.1
  have htrans : ∀ p q r : String × PVal,
      strLe p.1 q.1 = true → strLe q.1 r.1 = true → strLe p.1 r.1 = true :=
    fun p q r => strLe_trans p.1 q.1 r.1
  apply sorted_perm_nodup_keys_eq
  · exact ((insSortBy_perm _ l₁).trans hperm).trans (insSortBy_perm _ l₂).symm
  · exact insSortBy_pairwise _ htot htrans l₁
  · exact insSortBy_pairwise _ htot htrans l₂
  · exact (((insSortBy_perm _ l₁).map Prod.fst).nodup_iff).mpr hnd

theorem orderMultiList_map : ∀ xs : List PVal, orderMultiList xs = xs.map order_multi := by
  intro xs
  induction xs with
  | nil => rfl
  | cons x xs ih => simp [orderMultiList, ih]

theorem orderMultiEntries_map : ∀ xs : List (String × PVal),
    orderMultiEntries xs = xs.map (fun p => (p.1, order_multi p.2)) := by
  intro xs
  induction xs with
  | nil => rfl
  | cons p xs ih =>
    cases p with
    | mk k v => simp [orderMultiEntries, ih]

theorem orderMultiEntries_keys (l : List (String × PVal)) :
    (orderMultiEntries l).map Prod.fst = l.map Prod.fst := by
  rw [orderMultiEntries_map, List.map_map]
  rfl

theorem map_pair_congr :
    ∀ (l₁ l₂ : List (String × PVal)),
      l₁.map Prod.fst = l₂.map Prod.fst →
      (l₁.map Prod.snd).map order_multi = (l₂.map Prod.snd).map order_multi →
      l₁.map (fun p => (p.1, order_multi p.2)) = l₂.map (fun p => (p.1, order_multi p.2)) := by
  intro l₁
  induction l₁ with
  | nil =>
    intro l₂ hk _
    cases l₂ with
    | nil => rfl
    | cons q t => simp at hk
  | cons p t ih =>
    intro l₂ hk hv
    cases l₂ with
    | nil => simp at hk
    | cons q t₂ =>
      simp only [List.map_cons, List.cons.injEq, Prod.mk.injEq] at hk hv ⊢
      exact ⟨⟨hk.1, hv.1⟩, ih t₂ hk.2 hv.2⟩

mutual
theorem pequiv_refl : (v : PVal) → PEquiv v v
  | .vnone => .vnone
  | .vbool b => .vbool b
  | .vint n => .vint n
  | .vfloat q => .vfloat q
  | .vstr s => .vstr s
  | .vlist xs => pequivList_refl xs
  | .vdict xs => PEquiv.vdict xs xs xs rfl (pequivPairs_refl xs) (List.Perm.refl xs)
theorem pequivList_refl : (xs : List PVal) → PEquiv (.vlist xs) (.vlist xs)
  | [] => .vlistNil
  | x :: xs => .vlistCons x x xs xs (pequiv_refl x) (pequivList_refl xs)
theorem pequivPairs_refl : (xs : List (String × PVal)) →
    PEquiv (.vlist (xs.map Prod.snd)) (.vlist (xs.map Prod.snd))
  | [] => .vlistNil
  | (_, v) :: xs =>
    .vlistCons v v (List.map Prod.snd xs) (List.map Prod.snd xs)
      (pequiv_refl v) (pequivPairs_refl xs)
end

theorem pequiv_vlist_nil_inv {w : PVal} (h : PEquiv (.vlist []) w) : w = .vlist [] := by
  cases h
  rfl

theorem pequiv_vlist_cons_inv {x : PVal} {xs : List PVal} {w : PVal}
    (h : PEquiv (.vlist (x :: xs)) w) :
    ∃ y ys, w = .vlist (y :: ys) ∧ PEquiv x y ∧ PEquiv (.vlist xs) (.vlist ys) := by
  cases h with
  | vlistCons x y xs ys hx hxs => exact ⟨y, ys, rfl, hx, hxs⟩

theorem pequivList_append (zs : List PVal) :
    ∀ (xs ys : List PVal), PEquiv (.vlist xs) (.vlist ys) →
      PEquiv (.vlist (xs ++ zs)) (.vlist (ys ++ zs)) := by
  intro xs
  induction xs with
  | nil =>
    intro ys h
    have h2 := pequiv_vlist_nil_inv h
    cases ys with
    | nil => exact pequivList_refl zs
    | cons y ys =>
      injection h2 with h3
      exact List.noConfusion h3
  | cons x xs ih =>
    intro ys h
    rcases pequiv_vlist_cons_inv h with ⟨y, ys', heq, hx, hxs⟩
    injection heq with h2
    subst h2
    exact .vlistCons _ _ _ _ hx (ih ys' hxs)

theorem pair_filter_congr (pr : String × PVal → Bool)
    (hkey : ∀ p q : String × PVal, p.1 = q.1 → pr p = pr q) :
    ∀ (l₁ l₂ : List (String × PVal)),
      l₁.map Prod.fst = l₂.map Prod.fst →
      PEquiv (.vlist (l₁.map Prod.snd)) (.vlist (l₂.map Prod.snd)) →
      (l₁.filter pr).map Prod.fst = (l₂.filter pr).map Prod.fst ∧
        PEquiv (.vlist ((l₁.filter pr).map Prod.snd)) (.vlist ((l₂.filter pr).map Prod.snd)) := by
  intro l₁
  induction l₁ with
  | nil =>
    intro l₂ hk _
    cases l₂ with
    | nil => exact ⟨rfl, .vlistNil⟩
    | cons q t => simp at hk
  | cons p t ih =>
    intro l₂ hk hv
    cases l₂ with
    | nil => simp at hk
    | cons q t₂ =>
      simp only [List.map_cons, List.cons.injEq] at hk
      rcases pequiv_vlist_cons_inv
          (show PEquiv (.vlist (p.2 :: t.map Prod.snd)) (.vlist (q.2 :: t₂.map Prod.snd)) from hv)
        with ⟨y, ys, heq, hx, hxs⟩
      injection heq with h2
      injection h2 with h2a h2b
      subst h2a
      subst h2b
      obtain ⟨ihk, ihv⟩ := ih t₂ hk.2 hxs
      have hq : pr q = pr p := hkey q p hk.1.symm
      by_cases hpr : pr p = true
      · rw [List.filter_cons, List.filter_cons, if_pos hpr, if_pos (hq.trans hpr)]
        constructor
        · simp only [List.map_cons, List.cons.injEq]
          exact ⟨hk.1, ihk⟩
        · exact .vlistCons _ _ _ _ hx ihv
      · rw [List.filter_cons, List.filter_cons, if_neg hpr,
          if_neg (fun hc => hpr (hq.symm.trans hc))]
        exact ⟨ihk, ihv⟩

theorem pequiv_dict_append (adds : List (String × PVal)) {a b : List (String × PVal)}
    (h : PEquiv (.vdict a) (.vdict b)) : PEquiv (.vdict (a ++ adds)) (.vdict (b ++ adds)) := by
  cases h with
  | vdict xs zs ys hk hv hp =>
    refine PEquiv.vdict (a ++ adds) (zs ++ adds) (b ++ adds) ?_ ?_ (hp.append_right adds)
    · rw [List.map_append, List.map_append, hk]
    · rw [List.map_append, List.map_append]
      exact pequivList_append (adds.map Prod.snd) _ _ hv

theorem pequiv_dict_filter (pr : String × PVal → Bool)
    (hkey : ∀ p q : String × PVal, p.1 = q.1 → pr p = pr q) {a b : List (String × PVal)}
    (h : PEquiv (.vdict a) (.vdict b)) : PEquiv (.vdict (a.filter pr)) (.vdict (b.filter pr)) := by
  cases h with
  | vdict xs zs ys hk hv hp =>
    obtain ⟨hk', hv'⟩ := pair_filter_congr pr hkey a zs hk hv
    exact PEquiv.vdict _ _ _ hk' hv' (hp.filter pr)

theorem wf_dict_append {a : List (String × PVal)} (adds : List (String × PVal))
    (hwf : WFKeys (.vdict a)) (haddwf : ∀ p ∈ adds, WFKeys p.2)
    (haddnd : (adds.map Prod.fst).Nodup)
    (hdisj : ∀ k ∈ adds.map Prod.fst, k ∉ a.map Prod.fst) :
    WFKeys (.vdict (a ++ adds)) := by
  cases hwf with
  | vdict _ hv hnd =>
    refine WFKeys.vdict _ ?_ ?_
    · intro p hp
      rcases List.mem_append.mp hp with h | h
      · exact hv p h
      · exact haddwf p h
    · rw [List.map_append]
      exact List.nodup_append.mpr ⟨hnd, haddnd, fun k hk1 hk2 => (hdisj k hk2) hk1⟩

theorem wf_dict_filter (pr : String × PVal → Bool) {a : List (String × PVal)}
    (hwf : WFKeys (.vdict a)) : WFKeys (.vdict (a.filter pr)) := by
  cases hwf with
  | vdict _ hv hnd =>
    refine WFKeys.vdict _ ?_ ?_
    · intro p hp
      exact hv p (List.mem_of_mem_filter hp)
    · exact List.Nodup.sublist ((List.filter_sublist a).map Prod.fst) hnd

theorem orderMulti_equiv {a b : PVal} (h : PEquiv a b) :
    WFKeys a →
      (order_multi a = order_multi b ∧
        ∀ xs ys : List PVal, a = .vlist xs → b = .vlist ys →
          orderMultiList xs = orderMultiList ys) := by
  induction h with
  | vnone => exact fun _ => ⟨rfl, fun xs ys hx _ => by cases hx⟩
  | vbool b => exact fun _ => ⟨rfl, fun xs ys hx _ => by cases hx⟩
  | vint n => exact fun _ => ⟨rfl, fun xs ys hx _ => by cases hx⟩
  | vfloat q => exact fun _ => ⟨rfl, fun xs ys hx _ => by cases hx⟩
  | vstr s => exact fun _ => ⟨rfl, fun xs ys hx _ => by cases hx⟩
  | vlistNil => exact fun _ => ⟨rfl, fun xs ys hx hy => by cases hx; cases hy; rfl⟩
  | vlistCons x y xs ys hx hxs ihx ihxs =>
    intro hwf
    have hwx : WFKeys x := by
      cases hwf with
      | vlist _ h => exact h x (List.mem_cons_self x xs)
    have hwxs : WFKeys (.vlist xs) := by
      cases hwf with
      | vlist _ h => exact WFKeys.vlist xs (fun z hz => h z (List.mem_cons_of_mem x hz))
    have h1 : order_multi x = order_multi y := (ihx hwx).1
    have h2 : orderMultiList xs = orderMultiList ys := (ihxs hwxs).2 xs ys rfl rfl
    constructor
    · simp only [order_multi, orderMultiList]
      rw [h1, h2]
    · intro xs' ys' hx' hy'
      cases hx'
      cases hy'
      simp only [orderMultiList]
      rw [h1, h2]
  | vdict xs zs ys hkeys hvals hperm ihvals =>
    intro hwf
    obtain ⟨hv, hnd⟩ : (∀ p ∈ xs, WFKeys p.2) ∧ (xs.map Prod.fst).Nodup := by
      cases hwf with
      | vdict _ a b => exact ⟨a, b⟩
    have hwl : WFKeys (.vlist (xs.map Prod.snd)) := by
      refine WFKeys.vlist _ ?_
      intro v hvm
      rcases List.mem_map.mp hvm with ⟨p, hp, rfl⟩
      exact hv p hp
    have hvlist : orderMultiList (xs.map Prod.snd) = orderMultiList (zs.map Prod.snd) :=
      (ihvals hwl).2 _ _ rfl rfl
    have hpair : orderMultiEntries xs = orderMultiEntries zs := by
      rw [orderMultiEntries_map, orderMultiEntries_map]
      apply map_pair_congr _ _ hkeys
      rw [← orderMultiList_map, ← orderMultiList_map]
      exact hvlist
    have hperm' : (orderMultiEntries zs).Perm (orderMultiEntries ys) := by
      rw [orderMultiEntries_map, orderMultiEntries_map]
      exact hperm.map _
    have hndz : ((orderMultiEntries zs).map Prod.fst).Nodup := by
      rw [orderMultiEntries_keys, ← hkeys]
      exact hnd
    constructor
    · simp only [order_multi]
      rw [hpair]
      exact congrArg PVal.vdict (sortPairs_perm_eq _ _ hperm' hndz)
    · intro xs' ys' hx' _
      cases hx'

theorem alSet_not_mem (k : String) (v : PVal) :
    ∀ l : List (String × PVal), k ∉ l.map Prod.fst → alSet k v l = l ++ [(k, v)] := by
  intro l
  induction l with
  | nil => intro _; rfl
  | cons p t ih =>
    intro h
    simp only [List.map_cons, List.mem_cons] at h
    push_neg at h
    cases p with
    | mk k' v' =>
      simp only [alSet]
      rw [if_neg (fun he => h.1 he.symm), List.cons_append, ih h.2]

theorem env_core_equiv (a b adds : List (String × PVal))
    (h : PEquiv (.vdict a) (.vdict b)) (hwf : WFKeys (.vdict a))
    (haddwf : ∀ p ∈ adds, WFKeys p.2) (haddnd : (adds.map Prod.fst).Nodup)
    (hdisj : ∀ k ∈ adds.map Prod.fst, k ∉ a.map Prod.fst) :
    dict_hash (order_multi (.vdict ((a ++ adds).filter (fun p => ¬ (p.1 = "name")))))
      = dict_hash (order_multi (.vdict ((b ++ adds).filter (fun p => ¬ (p.1 = "name"))))) := by
  have hkey : ∀ p q : String × PVal, p.1 = q.1 →
      (fun p : String × PVal => (decide ¬ (p.1 = "name"))) p
        = (fun p : String × PVal => (decide ¬ (p.1 = "name"))) q := by
    intro p q hpq
    simp only [hpq]
  exact congrArg dict_hash
    ((orderMulti_equiv
        (pequiv_dict_filter _ hkey (pequiv_dict_append adds h))
        (wf_dict_filter _ (wf_dict_append adds hwf haddwf haddnd hdisj))).1)

/-- C9 (confirmed).  `environment_identifier` is invariant under
structural equivalence of the environment spec inputs: for any two parsed
conda documents related by `PEquiv` — entries of mappings permuted at any
depth, everything else unchanged — with well-formed (duplicate-free) keys
and no colliding `_pip`/`_shell` keys, and the same optional pip and
shell files, the produced identifier is the same: `_order_multi`
recursively sorts mapping entries by key (and lists by element key), so
the canonical forms coincide and `dict_hash` agrees. -/
theorem environment_c9_canonical (conda₁ conda₂ : List (String × PVal))
    (pip shell : Option (List String))
    (hequiv : PEquiv (.vdict conda₁) (.vdict conda₂))
    (hwf : WFKeys (.vdict conda₁))
    (hpip : "_pip" ∉ conda₁.map Prod.fst) (hshell : "_shell" ∉ conda₁.map Prod.fst) :
    Environment.environment_identifier conda₁ pip shell
      = Environment.environment_identifier conda₂ pip shell := by
  have hkperm : (conda₁.map Prod.fst).Perm (conda₂.map Prod.fst) := by
    cases hequiv with
    | vdict _ zs _ hk hv hp =>
      rw [hk]
      exact hp.map Prod.fst
  have hpip₂ : "_pip" ∉ conda₂.map Prod.fst := fun hm => hpip (hkperm.mem_iff.mpr hm)
  have hshell₂ : "_shell" ∉ conda₂.map Prod.fst := fun hm => hshell (hkperm.mem_iff.mpr hm)
  cases pip with
  | none =>
    cases shell with
    | none =>
      show dict_hash (order_multi (.vdict (conda₁.filter (fun p => ¬ (p.1 = "name")))))
        = dict_hash (order_multi (.vdict (conda₂.filter (fun p => ¬ (p.1 = "name")))))
      have hcore := env_core_equiv conda₁ conda₂ [] hequiv hwf (by simp) (by simp) (by simp)
      rw [List.append_nil, List.append_nil] at hcore
      exact hcore
    | some sls =>
      show dict_hash (order_multi (.vdict
            ((alSet "_shell" (PVal.vstr (String.join (shellFilterLines sls))) conda₁).filter
              (fun p => ¬ (p.1 = "name")))))
        = dict_hash (order_multi (.vdict
            ((alSet "_shell" (PVal.vstr (String.join (shellFilterLines sls))) conda₂).filter
              (fun p => ¬ (p.1 = "name")))))
      rw [alSet_not_mem _ _ conda₁ hshell, alSet_not_mem _ _ conda₂ hshell₂]
      refine env_core_equiv conda₁ conda₂
        [("_shell", PVal.vstr (String.join (shellFilterLines sls)))] hequiv hwf ?_ (by simp) ?_
      · intro p hp
        simp only [List.mem_cons, List.not_mem_nil, or_false] at hp
        subst hp
        exact WFKeys.vstr _
      · intro k hk
        simp only [List.map_cons, List.map_nil, List.mem_cons, List.not_mem_nil, or_false] at hk
        subst hk
        exact hshell
  | some pls =>
    cases shell with
    | none =>
      show dict_hash (order_multi (.vdict
            ((alSet "_pip" (PVal.vlist (pls.map PVal.vstr)) conda₁).filter
              (fun p => ¬ (p.1 = "name")))))
        = dict_hash (order_multi (.vdict
            ((alSet "_pip" (PVal.vlist (pls.map PVal.vstr)) conda₂).filter
              (fun p => ¬ (p.1 = "name")))))
      rw [alSet_not_mem _ _ conda₁ hpip, alSet_not_mem _ _ conda₂ hpip₂]
      refine env_core_equiv conda₁ conda₂
        [("_pip", PVal.vlist (pls.map PVal.vstr))] hequiv hwf ?_ (by simp) ?_
      · intro p hp
        simp only [List.mem_cons, List.not_mem_nil, or_false] at hp
        subst hp
        refine WFKeys.vlist _ ?_
        intro x hx
        rcases List.mem_map.mp hx with ⟨s, _, rfl⟩
        exact WFKeys.vstr s
      · intro k hk
        simp only [List.map_cons, List.map_nil, List.mem_cons, List.not_mem_nil, or_false] at hk
        subst hk
        exact hpip
    | some sls =>
      show dict_hash (order_multi (.vdict
            ((alSet "_shell" (PVal.vstr (String.join (shellFilterLines sls)))
                (alSet "_pip" (PVal.vlist (pls.map PVal.vstr)) conda₁)).filter
              (fun p => ¬ (p.1 = "name")))))
        = dict_hash (order_multi (.vdict
            ((alSet "_shell" (PVal.vstr (String.join (shellFilterLines sls)))
                (alSet "_pip" (PVal.vlist (pls.map PVal.vstr)) conda₂)).filter
              (fun p => ¬ (p.1 = "name")))))
      have hs1 : "_shell" ∉ (conda₁ ++ [("_pip", PVal.vlist (pls.map PVal.vstr))]).map Prod.fst := by
        rw [List.map_append]
        intro hm
        rcases List.mem_append.mp hm with hm | hm
        · exact hshell hm
        · simp at hm
      have hs2 : "_shell" ∉ (conda₂ ++ [("_pip", PVal.vlist (pls.map PVal.vstr))]).map Prod.fst := by
        rw [List.map_append]
        intro hm
        rcases List.mem_append.mp hm with hm | hm
        · exact hshell₂ hm
        · simp at hm
      rw [alSet_not_mem _ _ conda₁ hpip, alSet_not_mem _ _ conda₂ hpip₂,
        alSet_not_mem _ _ _ hs1, alSet_not_mem _ _ _ hs2,
        List.append_assoc, List.append_assoc]
      refine env_core_equiv conda₁ conda₂
        [("_pip", PVal.vlist (pls.map PVal.vstr)),
         ("_shell", PVal.vstr (String.join (shellFilterLines sls)))] hequiv hwf ?_ (by simp) ?_
      · intro p hp
        simp only [List.mem_cons, List.not_mem_nil, or_false] at hp
        rcases hp with rfl | rfl
        · refine WFKeys.vlist _ ?_
          intro x hx
          rcases List.mem_map.mp hx with ⟨s, _, rfl⟩
          exact WFKeys.vstr s
        · exact WFKeys.vstr _
      · intro k hk
        simp only [List.map_cons, List.map_nil, List.mem_cons, List.not_mem_nil, or_false] at hk
        rcases hk with rfl | rfl
        · exact hpip
        · exact hshell

/-- C9 witness: two concrete conda documents — the entries of the nested
pip mapping transposed and the top-level entries rotated — with the same
pip and shell files produce the same environment identifier. -/
theorem environment_c9_canonical_witness :
    Environment.environment_identifier condaW1
        (some ["numpy==1.26\n"]) (some ["# setup\n", "pip install -e .\n"])
      = Environment.environment_identifier condaW2
        (some ["numpy==1.26\n"]) (some ["# setup\n", "pip install -e .\n"]) := by
  refine environment_c9_canonical condaW1 condaW2 _ _ ?_ ?_ (by decide) (by decide)
  · refine PEquiv.vdict condaW1 condaWz condaW2 rfl ?_ ?_
    · show PEquiv (.vlist [.vstr "demo", .vstr "defaults", depsW1])
        (.vlist [.vstr "demo", .vstr "defaults", depsW2])
      refine .vlistCons _ _ _ _ (pequiv_refl _) ?_
      refine .vlistCons _ _ _ _ (pequiv_refl _) ?_
      refine .vlistCons _ _ _ _ ?_ .vlistNil
      show PEquiv
        (.vlist [.vstr "numpy", .vdict [("pip", .vlist [.vstr "torch"]), ("extra", .vstr "x")]])
        (.vlist [.vstr "numpy", .vdict [("extra", .vstr "x"), ("pip", .vlist [.vstr "torch"])]])
      refine .vlistCons _ _ _ _ (pequiv_refl _) ?_
      refine .vlistCons _ _ _ _ ?_ .vlistNil
      exact PEquiv.vdict _ _ _ rfl (pequivPairs_refl _) (List.Perm.swap _ _ _)
    · show List.Perm
        [("name", PVal.vstr "demo"), ("channels", PVal.vstr "defaults"), ("dependencies", depsW2)]
        [("dependencies", depsW2), ("name", PVal.vstr "demo"), ("channels", PVal.vstr "defaults")]
      exact List.Perm.trans (List.Perm.cons _ (List.Perm.swap _ _ _)) (List.Perm.swap _ _ _)
  · refine WFKeys.vdict _ ?_ (by decide)
    intro p hp
    simp only [condaW1, depsW1, List.mem_cons, List.not_mem_nil, or_false] at hp
    rcases hp with rfl | rfl | rfl
    · exact WFKeys.vstr _
    · exact WFKeys.vstr _
    · refine WFKeys.vlist _ ?_
      intro x hx
      simp only [List.mem_cons, List.not_mem_nil, or_false] at hx
      rcases hx with rfl | rfl
      · exact WFKeys.vstr _
      · refine WFKeys.vdict _ ?_ (by decide)
        intro q hq
        simp only [List.mem_cons, List.not_mem_nil, or_false] at hq
        rcases hq with rfl | rfl
        · refine WFKeys.vlist _ ?_
          intro z hz
          simp only [List.mem_cons, List.not_mem_nil, or_false] at hz
          subst hz
          exact WFKeys.vstr _
        · exact WFKeys.vstr _

end Msks
